import Mathlib

set_option autoImplicit false
set_option maxHeartbeats 1000000

/-!
Verification of the modman module manager (src/src/module.rs) against its
specification. The filesystem is embedded shallowly: paths are lists of
components, the tree is an association list from absolute paths to nodes,
and symbolic-link resolution is fuel-bounded, mirroring POSIX path walking
as used by the Rust standard library calls in the source
(exists/is_file/is_dir follow links; read_link, unlink, rmdir and symlink
creation resolve the parent but not the final component). Resource source
and target strings are modelled directly as component lists; the
relative-path splitting performed by PathBuf::join is outside the model.
TOML decoding is the external serde service: a file node carries either a
successfully typed document or a decode failure.
-/

namespace Modman

/-- A configuration document as typed by the serde derive on ModuleDef
(src/src/module.rs lines 21-32): description is an Option field (absent
means none), init and cleanup carry serde-default and may be absent,
resources has no default. Each field here is wrapped in Option to record
whether the key is present in the document. -/
structure TomlDoc where
  description : Option String
  init : Option Bool
  cleanup : Option Bool
  resources : Option (List (List String × List String))
deriving DecidableEq

/-- A filesystem node: a regular file with its permission mode and, when it
is a configuration file, the decode outcome of its bytes (none means the
bytes do not decode); a directory with its mode; or a symbolic link storing
its target path verbatim. -/
inductive Node where
  | file (mode : Nat) (content : Option TomlDoc)
  | dir (mode : Nat)
  | symlink (target : List String)
deriving DecidableEq

/-- The filesystem: a finite association list from absolute paths (component
lists) to nodes. The first binding for a key wins. -/
abbrev FS := List (List String × Node)

deriving instance DecidableEq for Except

/-- First binding for a key in the association list. -/
def fsFind : FS → List String → Option Node
  | [], _ => none
  | (q, n) :: rest, p => if q = p then some n else fsFind rest p

/-- Node stored at a path; the root (the empty path) is always a directory. -/
def fsGet (fs : FS) (p : List String) : Option Node :=
  if p = [] then some (Node.dir 493) else fsFind fs p

/-- Insert or overwrite the binding for a path. -/
def fsSet (fs : FS) (p : List String) (n : Node) : FS :=
  (p, n) :: fs

/-- Remove every binding for a path. -/
def fsErase : FS → List String → FS
  | [], _ => []
  | (q, n) :: rest, p => if q = p then fsErase rest p else (q, n) :: fsErase rest p

/-- One link-free pass of POSIX path walking: the accumulator cur is the
canonical directory reached so far; each remaining component is looked up
under it and directories are entered. Meeting a symbolic link suspends the
pass (Sum.inr), returning the restart path: the (absolute) link target
followed by the remaining components. A file or missing entry met before
the final component aborts the walk; at the final component its path is the
answer (Sum.inl). -/
def walkPlain (fs : FS) : List String → List String → Option (List String) ⊕ List String
  | cur, [] => Sum.inl (some cur)
  | cur, c :: rs =>
    match fsGet fs (cur ++ [c]) with
    | some (Node.symlink t) => Sum.inr (t ++ rs)
    | some (Node.dir _) => walkPlain fs (cur ++ [c]) rs
    | _ => Sum.inl (if rs.isEmpty then some (cur ++ [c]) else none)

/-- Drive walkPlain to an answer, restarting from the root at every
suspended symbolic link; fuel bounds the number of links traversed
(ELOOP). -/
def resolveLoop (fs : FS) : Nat → Option (List String) ⊕ List String → Option (List String)
  | _, Sum.inl r => r
  | 0, Sum.inr _ => none
  | f + 1, Sum.inr p => resolveLoop fs f (walkPlain fs [] p)

/-- POSIX path walking with symlink following, as performed by stat: the
final component, when it is a link, is followed too. -/
def resolveSt (fs : FS) (fuel : Nat) (cur rest : List String) : Option (List String) :=
  resolveLoop fs fuel (walkPlain fs cur rest)

/-- stat: fully resolve a path and return the node it denotes, if any. -/
def statNode (fs : FS) (fuel : Nat) (p : List String) : Option Node :=
  match resolveSt fs fuel [] p with
  | some q => fsGet fs q
  | none => none

/-- Path::exists, which follows symbolic links. -/
def pathExistsB (fs : FS) (fuel : Nat) (p : List String) : Bool :=
  (statNode fs fuel p).isSome

/-- Path::is_file, which follows symbolic links. -/
def isFileB (fs : FS) (fuel : Nat) (p : List String) : Bool :=
  match statNode fs fuel p with
  | some (Node.file _ _) => true
  | _ => false

/-- Path::is_dir, which follows symbolic links. -/
def isDirB (fs : FS) (fuel : Nat) (p : List String) : Bool :=
  match statNode fs fuel p with
  | some (Node.dir _) => true
  | _ => false

/-- Permission mode reported by stat for a resolved node. -/
def nodeMode : Node → Nat
  | Node.file m _ => m
  | Node.dir m => m
  | Node.symlink _ => 0

/-- Mode of the node a path resolves to, 0 when it does not exist (the
source only reads the mode after an existence check succeeded). -/
def statModeB (fs : FS) (fuel : Nat) (p : List String) : Nat :=
  match statNode fs fuel p with
  | some n => nodeMode n
  | none => 0

/-- Resolve every component but the last through directories and links, and
append the last component to the canonical parent, as unlink, rmdir,
readlink and symlink creation do. Fails when the parent does not resolve to
a directory. -/
def resolveParent (fs : FS) (fuel : Nat) (p : List String) : Option (List String) :=
  match p.getLast? with
  | none => none
  | some c =>
    match resolveSt fs fuel [] p.dropLast with
    | some q =>
      match fsGet fs q with
      | some (Node.dir _) => some (q ++ [c])
      | _ => none
    | none => none

/-- fs::remove_file (unlink): removes the entry itself, links included;
fails on a directory or a missing entry. -/
def removeFileFs (fs : FS) (fuel : Nat) (p : List String) : Option FS :=
  match resolveParent fs fuel p with
  | some e =>
    match fsGet fs e with
    | some (Node.dir _) => none
    | some _ => some (fsErase fs e)
    | none => none
  | none => none

/-- Whether a directory path has any entry directly below it. -/
def hasChild (fs : FS) (p : List String) : Bool :=
  fs.any (fun e => e.1.dropLast = p && e.1 ≠ [])

/-- fs::remove_dir (rmdir): removes an empty directory; fails on a file, a
symbolic link (rmdir does not follow the final component) or a missing
entry. -/
def removeDirFs (fs : FS) (fuel : Nat) (p : List String) : Option FS :=
  match resolveParent fs fuel p with
  | some e =>
    match fsGet fs e with
    | some (Node.dir _) => if hasChild fs e then none else some (fsErase fs e)
    | some _ => none
    | none => none
  | none => none

/-- fs::read_link: returns the stored target of a symbolic link without
following it; fails on anything that is not a link. -/
def readLinkFs (fs : FS) (fuel : Nat) (p : List String) : Option (List String) :=
  match resolveParent fs fuel p with
  | some e =>
    match fsGet fs e with
    | some (Node.symlink t) => some t
    | _ => none
  | none => none

/-- std::os::unix::fs::symlink: creates a link at the given path storing the
source verbatim; fails when anything already occupies the path (EEXIST) or
the parent does not resolve to a directory. -/
def symlinkFs (fs : FS) (fuel : Nat) (src : List String) (linkPath : List String) : Option FS :=
  match resolveParent fs fuel linkPath with
  | some e =>
    match fsGet fs e with
    | none => some (fsSet fs e (Node.symlink src))
    | some _ => none
  | none => none

/-- One link-free pass of fs::create_dir_all from the canonical directory
cur: existing directories are entered, missing entries are created as
directories (mode 493 = 0o755), a file in the way is an error, and a
symbolic link suspends the pass (Sum.inr) carrying its target and the
remaining components. Directories created before a failure persist. -/
def mkdirWalk : FS → List String → List String → (FS × Bool) ⊕ (FS × List String × List String)
  | fs, _, [] => Sum.inl (fs, true)
  | fs, cur, c :: rs =>
    match fsGet fs (cur ++ [c]) with
    | some (Node.dir _) => mkdirWalk fs (cur ++ [c]) rs
    | some (Node.file _ _) => Sum.inl (fs, false)
    | some (Node.symlink t) => Sum.inr (fs, t, rs)
    | none => mkdirWalk (fsSet fs (cur ++ [c]) (Node.dir 493)) (cur ++ [c]) rs

/-- Drive mkdirWalk to an answer: a suspended symbolic link is followed
when it resolves to a directory and the walk continues from there, fuel
bounding the links traversed; a link that does not lead to a directory is
an error. -/
def mkdirLoop : Nat → (FS × Bool) ⊕ (FS × List String × List String) → FS × Bool
  | _, Sum.inl r => r
  | 0, Sum.inr (fs, _, _) => (fs, false)
  | f + 1, Sum.inr (fs, t, rs) =>
    match resolveSt fs f [] t with
    | some q =>
      match fsGet fs q with
      | some (Node.dir _) => mkdirLoop f (mkdirWalk fs q rs)
      | _ => (fs, false)
    | none => (fs, false)

/-- fs::create_dir_all on the remaining components below cur. -/
def mkdirAll (fs : FS) (fuel : Nat) (cur rest : List String) : FS × Bool :=
  mkdirLoop fuel (mkdirWalk fs cur rest)

/-- Path::ancestors: the path itself, then each parent, down to the root. -/
def ancPaths (p : List String) : List (List String) :=
  ((List.range (p.length + 1)).reverse).map (fun k => p.take k)

/-- check_permissions (src/src/module.rs lines 340-342): shift the mode
right by six bits to isolate the owner triad and test that every desired
bit is present. -/
def check_permissions (mode : Nat) (desired : Nat) : Bool :=
  ((mode >>> 6) &&& desired) == desired

/-- PERMISSIONS_RX, required of init and cleanup scripts. -/
def PERMISSIONS_RX : Nat := 5

/-- PERMISSIONS_R, required of declared resources. -/
def PERMISSIONS_R : Nat := 4

/-- file_name_to_string and Module::name: the final path component. -/
def pathName (p : List String) : String := p.getLastD ""

/-- A loaded module definition (src/src/module.rs lines 21-32). The
resource map is carried as an association list whose order stands for the
unspecified HashMap iteration order; keys are module-relative source paths,
values are home-relative target paths, both as component lists. -/
structure ModuleDef where
  description : Option String
  init : Bool
  cleanup : Bool
  resources : List (List String × List String)
deriving DecidableEq

/-- Serde decode of a typed document into ModuleDef: description is
optional, init and cleanup default to false when absent, and a document
lacking the resources key fails to decode. -/
def decodeModuleDef (doc : TomlDoc) : Option ModuleDef :=
  match doc.resources with
  | none => none
  | some rs =>
    some { description := doc.description
           init := doc.init.getD false
           cleanup := doc.cleanup.getD false
           resources := rs }

/-- fs::read of a configuration file followed by the opaque TOML decode:
none when the read fails (missing file or directory in the way), some
(decode outcome) when the path resolves to a regular file. -/
def readConfig (fs : FS) (fuel : Nat) (p : List String) : Option (Option TomlDoc) :=
  match statNode fs fuel p with
  | some (Node.file _ content) => some content
  | _ => none

/-- Whether a script or resource passes the existence-and-permission test
of ModuleDef::verify: the path exists (following links) and its mode grants
the desired owner bits. -/
def accessOk (fs : FS) (fuel : Nat) (p : List String) (desired : Nat) : Bool :=
  pathExistsB fs fuel p && check_permissions (statModeB fs fuel p) desired

/-- The error taxonomy of src/src/module.rs lines 87-131. Underlying
toml::de::Error and io::Error payloads carry no information the core
inspects and are dropped; path payloads are component lists. -/
inductive ModuleError where
  | resource (moduleName : String) (key : List String)
  | script (moduleName : String) (label : String)
  | exec (moduleName : String) (label : String)
  | install (moduleName : String) (target : List String)
  | installPath (moduleName : String) (blocked : List String)
  | uninstall (moduleName : String) (actual : List String)
  | parse (moduleName : String)
  | ioErr (moduleName : String)
  | directory
deriving DecidableEq

/-- The resource loop of ModuleDef::verify: the first declared resource
missing owner-read access yields a ResourceError naming it. -/
def verifyResources (fs : FS) (fuel : Nat) (name : String) (modPath : List String) :
    List (List String × List String) → Except ModuleError Unit
  | [] => Except.ok ()
  | (r, _) :: rest =>
    if !(accessOk fs fuel (modPath ++ r) PERMISSIONS_R) then
      Except.error (ModuleError.resource name r)
    else
      verifyResources fs fuel name modPath rest

/-- ModuleDef::verify (src/src/module.rs lines 44-84): the init script is
checked first, then the cleanup script, then the resources, returning the
first failure. -/
def ModuleDef.verify (fs : FS) (fuel : Nat) (d : ModuleDef) (modPath : List String) :
    Except ModuleError Unit :=
  if d.init && !(accessOk fs fuel (modPath ++ ["init.sh"]) PERMISSIONS_RX) then
    Except.error (ModuleError.script (pathName modPath) "init")
  else if d.cleanup && !(accessOk fs fuel (modPath ++ ["cleanup.sh"]) PERMISSIONS_RX) then
    Except.error (ModuleError.script (pathName modPath) "cleanup")
  else
    verifyResources fs fuel (pathName modPath) modPath d.resources

/-- ModuleDef::new (src/src/module.rs lines 35-42): read config.toml (read
failure is an IO error), decode it (failure is a parse error), then verify. -/
def ModuleDef.new (fs : FS) (fuel : Nat) (modPath : List String) :
    Except ModuleError ModuleDef :=
  match readConfig fs fuel (modPath ++ ["config.toml"]) with
  | none => Except.error (ModuleError.ioErr (pathName modPath))
  | some none => Except.error (ModuleError.parse (pathName modPath))
  | some (some doc) =>
    match decodeModuleDef doc with
    | none => Except.error (ModuleError.parse (pathName modPath))
    | some d =>
      match d.verify fs fuel modPath with
      | Except.error e => Except.error e
      | Except.ok _ => Except.ok d

/-- A module: its directory path and its verified definition. -/
structure Module where
  path : List String
  definition : ModuleDef
deriving DecidableEq

/-- Module::name: the final component of the module directory. -/
def Module.name (m : Module) : String := pathName m.path

/-- Module::new: load and verify the definition, then wrap it with the
path. -/
def Module.new (fs : FS) (fuel : Nat) (modPath : List String) :
    Except ModuleError Module :=
  match ModuleDef.new fs fuel modPath with
  | Except.error e => Except.error e
  | Except.ok d => Except.ok { path := modPath, definition := d }

/-- The names of the immediate entries of a canonical directory path, in
association-list order (standing for the unspecified enumeration order). -/
def childNames (fs : FS) (p : List String) : List String :=
  fs.filterMap (fun e => if e.1.dropLast = p ∧ e.1 ≠ [] then e.1.getLast? else none)

/-- Module::read_dir (src/src/module.rs lines 161-163): open the root for
enumeration; every failure collapses to the Directory error. -/
def Module.readDirFs (fs : FS) (fuel : Nat) (dir : List String) :
    Except ModuleError (List String) :=
  match resolveSt fs fuel [] dir with
  | some q =>
    match fsGet fs q with
    | some (Node.dir _) => Except.ok (childNames fs q)
    | _ => Except.error ModuleError.directory
  | none => Except.error ModuleError.directory

/-- Module::list (src/src/module.rs lines 178-195): enumerate the root (a
failure is the Directory error), keep the entries that are directories, and
record the construction outcome of each. -/
def Module.list (fs : FS) (fuel : Nat) (dir : List String) :
    Except ModuleError (List (Except ModuleError Module)) :=
  match Module.readDirFs fs fuel dir with
  | Except.error e => Except.error e
  | Except.ok names =>
    Except.ok ((names.filter (fun c => isDirB fs fuel (dir ++ [c]))).map
      (fun c => Module.new fs fuel (dir ++ [c])))

/-- Module::verify_module_creation (src/src/module.rs lines 169-176): walk
the ancestors of a target and report the first one that exists but is not a
directory. -/
def verifyModuleCreation (fs : FS) (fuel : Nat) (p : List String) :
    Except (List String) Unit :=
  go (ancPaths p)
where
  /-- Loop body over the ancestor list. -/
  go : List (List String) → Except (List String) Unit
    | [] => Except.ok ()
    | a :: rest =>
      if pathExistsB fs fuel a && !(isDirB fs fuel a) then Except.error a
      else go rest

/-- Phase A of Module::install (src/src/module.rs lines 199-227): for each
resource target under the home root, remove an existing occupant when
forcing, fail with an Install conflict otherwise, and for absent targets
check the ancestors, removing a blocking file when forcing or failing with
an InstallPath conflict. Filesystem failures abort as IO errors. -/
def preflight (fs : FS) (fuel : Nat) (name : String) (home : List String)
    (removeExisting : Bool) : List (List String) → FS × Except ModuleError Unit
  | [] => (fs, Except.ok ())
  | t :: ts =>
    let sys := home ++ t
    if pathExistsB fs fuel sys && removeExisting then
      if isFileB fs fuel sys then
        match removeFileFs fs fuel sys with
        | some fs' => preflight fs' fuel name home removeExisting ts
        | none => (fs, Except.error (ModuleError.ioErr name))
      else
        match removeDirFs fs fuel sys with
        | some fs' => preflight fs' fuel name home removeExisting ts
        | none => (fs, Except.error (ModuleError.ioErr name))
    else if pathExistsB fs fuel sys then
      (fs, Except.error (ModuleError.install name sys))
    else
      match verifyModuleCreation fs fuel sys with
      | Except.error blocked =>
        if removeExisting then
          match removeFileFs fs fuel blocked with
          | some fs' => preflight fs' fuel name home removeExisting ts
          | none => (fs, Except.error (ModuleError.ioErr name))
        else (fs, Except.error (ModuleError.installPath name blocked))
      | Except.ok _ => preflight fs fuel name home removeExisting ts

/-- Phase B of Module::install (src/src/module.rs lines 230-242): for each
resource, create the parent directory tree of the target and place a
symbolic link to the absolute source path; any failure is an IO error and
aborts, keeping effects already performed. -/
def linkPhase (fuel : Nat) (name : String) (home : List String) (modPath : List String) :
    FS → List (List String × List String) → FS × Except ModuleError Unit
  | fs, [] => (fs, Except.ok ())
  | fs, (r, t) :: rest =>
    let sys := home ++ t
    let res := modPath ++ r
    match mkdirAll fs fuel [] sys.dropLast with
    | (fs', false) => (fs', Except.error (ModuleError.ioErr name))
    | (fs', true) =>
      match symlinkFs fs' fuel res sys with
      | none => (fs', Except.error (ModuleError.ioErr name))
      | some fs'' => linkPhase fuel name home modPath fs'' rest

/-- Outcome of spawning a lifecycle script: none when spawn or wait fails
(an IO error in the source), some b when the child exits with success b.
The exit status is an input of the model, scripts being external
processes. -/
def runScript (res : Option Bool) (name : String) (script : String) :
    Except ModuleError Unit :=
  match res with
  | none => Except.error (ModuleError.ioErr name)
  | some true => Except.ok ()
  | some false => Except.error (ModuleError.exec name script)

/-- Module::install (src/src/module.rs lines 197-265): preflight every
target, then link every resource, then run the init script when declared.
The Exec error carries INIT_SCRIPT, the literal file name init.sh. -/
def Module.install (fs : FS) (fuel : Nat) (home : List String) (m : Module)
    (removeExisting : Bool) (initRes : Option Bool) : FS × Except ModuleError Unit :=
  match preflight fs fuel m.name home removeExisting (m.definition.resources.map (·.2)) with
  | (fs1, Except.error e) => (fs1, Except.error e)
  | (fs1, Except.ok _) =>
    match linkPhase fuel m.name home m.path fs1 m.definition.resources with
    | (fs2, Except.error e) => (fs2, Except.error e)
    | (fs2, Except.ok _) =>
      if m.definition.init then (fs2, runScript initRes m.name "init.sh")
      else (fs2, Except.ok ())

/-- The verification pass of Module::uninstall (src/src/module.rs lines
269-286): for each resource whose target exists, read it as a link; a
non-link is an IO error, and a link whose stored path differs from the
declared source is an Uninstall mismatch carrying the actual path. -/
def uverify (fs : FS) (fuel : Nat) (name : String) (home : List String)
    (modPath : List String) : List (List String × List String) → Except ModuleError Unit
  | [] => Except.ok ()
  | (r, t) :: rest =>
    let sys := home ++ t
    let res := modPath ++ r
    if !(pathExistsB fs fuel sys) then uverify fs fuel name home modPath rest
    else
      match readLinkFs fs fuel sys with
      | some actual =>
        if actual ≠ res then Except.error (ModuleError.uninstall name actual)
        else uverify fs fuel name home modPath rest
      | none => Except.error (ModuleError.ioErr name)

/-- The removal pass of Module::uninstall (src/src/module.rs lines
288-306): each existing target is removed, with remove_file for files and
remove_dir otherwise (both tests following links); missing targets are
skipped; failures are IO errors and abort, keeping removals already done. -/
def removalPhase (fuel : Nat) (name : String) (home : List String) :
    FS → List (List String) → FS × Except ModuleError Unit
  | fs, [] => (fs, Except.ok ())
  | fs, t :: ts =>
    let sys := home ++ t
    if !(pathExistsB fs fuel sys) then removalPhase fuel name home fs ts
    else if isFileB fs fuel sys then
      match removeFileFs fs fuel sys with
      | some fs' => removalPhase fuel name home fs' ts
      | none => (fs, Except.error (ModuleError.ioErr name))
    else
      match removeDirFs fs fuel sys with
      | some fs' => removalPhase fuel name home fs' ts
      | none => (fs, Except.error (ModuleError.ioErr name))

/-- Module::uninstall (src/src/module.rs lines 267-328): unless forced,
verify every target first (failing before anything is removed), then remove
the targets, then run the cleanup script when declared; its Exec error
carries CLEANUP_SCRIPT, the literal file name cleanup.sh. -/
def Module.uninstall (fs : FS) (fuel : Nat) (home : List String) (m : Module)
    (force : Bool) (cleanupRes : Option Bool) : FS × Except ModuleError Unit :=
  match (if force then Except.ok () else
      uverify fs fuel m.name home m.path m.definition.resources) with
  | Except.error e => (fs, Except.error e)
  | Except.ok _ =>
    match removalPhase fuel m.name home fs (m.definition.resources.map (·.2)) with
    | (fs', Except.error e) => (fs', Except.error e)
    | (fs', Except.ok _) =>
      if m.definition.cleanup then (fs', runScript cleanupRes m.name "cleanup.sh")
      else (fs', Except.ok ())

/-! Predicate vocabulary used to state the theorems: decidable Boolean
forms so that witnesses evaluate, with propositional unfoldings proved
below. -/

/-- A path entry is unobstructive: absent or a plain directory. -/
def okPreB (fs : FS) (q : List String) : Bool :=
  match fsGet fs q with
  | none => true
  | some (Node.dir _) => true
  | some _ => false

/-- A target path is clean: nothing stored at it, and every proper prefix
is absent or a plain directory (no file and no symbolic link anywhere on
the way). -/
def cleanTgtB (fs : FS) (p : List String) : Bool :=
  (fsGet fs p).isNone && (List.range p.length).all (fun n => okPreB fs (p.take n))

/-- A path stores a regular file reached through plain directories. -/
def plainFileB (fs : FS) (p : List String) : Bool :=
  (match fsGet fs p with
   | some (Node.file _ _) => true
   | _ => false) &&
  (List.range p.length).all (fun n =>
    match fsGet fs (p.take n) with
    | some (Node.dir _) => true
    | _ => false)

/-- No target in the list is a leading part of another (this rules out
duplicates as well). -/
def targetsFreeB : List (List String) → Bool
  | [] => true
  | t :: ts =>
    ts.all (fun u => !(t.isPrefixOf u) && !(u.isPrefixOf t)) && targetsFreeB ts

/-- Propositional form of okPreB. -/
def OkPre (fs : FS) (q : List String) : Prop :=
  fsGet fs q = none ∨ ∃ mo, fsGet fs q = some (Node.dir mo)

/-- Propositional form of cleanTgtB. -/
def CleanTgt (fs : FS) (p : List String) : Prop :=
  fsGet fs p = none ∧ ∀ n, n < p.length → OkPre fs (p.take n)

/-- Propositional form of plainFileB. -/
def PlainFile (fs : FS) (p : List String) : Prop :=
  (∃ mo c, fsGet fs p = some (Node.file mo c)) ∧
  ∀ n, n < p.length → ∃ mo, fsGet fs (p.take n) = some (Node.dir mo)

/-- Pairwise freeness of resource targets: neither of two targets extends
the other. -/
def TargetsFree (rs : List (List String × List String)) : Prop :=
  List.Pairwise (fun a b => (¬ ∃ s, a.2 ++ s = b.2) ∧ (¬ ∃ s, b.2 ++ s = a.2)) rs

/-- Invariant of the link phase: starting from fs0, the filesystem fsCur
extends fs0 exactly by directories created below the processed targets and
by the links placed at the processed targets, and each processed target
carries its link at the end of a plain directory chain. -/
def InstallInv (fs0 fsCur : FS) (home modPath : List String)
    (done : List (List String × List String)) : Prop :=
  (∀ q v, fsGet fs0 q = some v → fsGet fsCur q = some v) ∧
  (∀ q, fsGet fsCur q ≠ fsGet fs0 q →
    fsGet fs0 q = none ∧
    ((fsGet fsCur q = some (Node.dir 493) ∧
        ∃ rt ∈ done, ∃ s, s ≠ [] ∧ q ++ s = home ++ rt.2) ∨
     (∃ rt ∈ done, q = home ++ rt.2 ∧
        fsGet fsCur q = some (Node.symlink (modPath ++ rt.1))))) ∧
  (∀ rt ∈ done,
    fsGet fsCur (home ++ rt.2) = some (Node.symlink (modPath ++ rt.1)) ∧
    ∀ n, n < (home ++ rt.2).length →
      ∃ mo, fsGet fsCur ((home ++ rt.2).take n) = some (Node.dir mo))

/-! Concrete fixtures used by the witnesses and counterexamples. -/

/-- A configuration document declaring one resource r mapped to a/b. -/
def exDoc : TomlDoc :=
  { description := none, init := some false, cleanup := none,
    resources := some [(["r"], ["a", "b"])] }

/-- A minimal valid configuration document: resources present but empty. -/
def exDocEmpty : TomlDoc :=
  { description := none, init := none, cleanup := none, resources := some [] }

/-- A well-typed document lacking the resources key. -/
def exDocNoRes : TomlDoc :=
  { description := none, init := none, cleanup := none, resources := none }

/-- The module used by the round-trip fixtures: one file resource r linked
to a/b under the home root. -/
def exMod : Module :=
  { path := ["mods", "m"],
    definition := { description := none, init := false, cleanup := false,
                    resources := [(["r"], ["a", "b"])] } }

/-- A clean filesystem for the round trip: the module directory with its
config and resource, and an empty home directory. -/
def exFs : FS :=
  [ (["mods"], Node.dir 493),
    (["mods", "m"], Node.dir 493),
    (["mods", "m", "config.toml"], Node.file 420 (some exDoc)),
    (["mods", "m", "r"], Node.file 420 none),
    (["home"], Node.dir 493) ]

/-- The round-trip filesystem with a regular file at home/a, blocking the
ancestor of the absent target a/b. -/
def exFsBlocked : FS :=
  [ (["mods"], Node.dir 493),
    (["mods", "m"], Node.dir 493),
    (["mods", "m", "config.toml"], Node.file 420 (some exDoc)),
    (["mods", "m", "r"], Node.file 420 none),
    (["home"], Node.dir 493),
    (["home", "a"], Node.file 420 none) ]

/-- A module with two resources whose targets are a/b and x. -/
def exModTwo : Module :=
  { path := ["mods", "m"],
    definition := { description := none, init := false, cleanup := false,
                    resources := [(["r1"], ["a", "b"]), (["r2"], ["x"])] } }

/-- Filesystem where the first target a/b is absent behind a blocking file
home/a while the second target x exists. -/
def exFsMixed : FS :=
  [ (["mods"], Node.dir 493),
    (["mods", "m"], Node.dir 493),
    (["mods", "m", "r1"], Node.file 420 none),
    (["mods", "m", "r2"], Node.file 420 none),
    (["home"], Node.dir 493),
    (["home", "a"], Node.file 420 none),
    (["home", "x"], Node.file 420 none) ]

/-- A module with two resources whose targets are t1 and t2. -/
def exModT12 : Module :=
  { path := ["mods", "m"],
    definition := { description := none, init := false, cleanup := false,
                    resources := [(["r1"], ["t1"]), (["r2"], ["t2"])] } }

/-- Filesystem where target t1 is a regular file and target t2 is a
symbolic link to an existing path that is not the declared source. -/
def exFsMismatch : FS :=
  [ (["mods"], Node.dir 493),
    (["mods", "m"], Node.dir 493),
    (["mods", "m", "r1"], Node.file 420 none),
    (["mods", "m", "r2"], Node.file 420 none),
    (["home"], Node.dir 493),
    (["home", "t1"], Node.file 420 none),
    (["home", "t2"], Node.symlink ["elsewhere"]),
    (["elsewhere"], Node.file 420 none) ]

/-- A module with a single resource whose target is t. -/
def exModT : Module :=
  { path := ["mods", "m"],
    definition := { description := none, init := false, cleanup := false,
                    resources := [(["r"], ["t"])] } }

/-- Filesystem holding a dangling symbolic link at the target t. -/
def exFsDangling : FS :=
  [ (["mods"], Node.dir 493),
    (["mods", "m"], Node.dir 493),
    (["mods", "m", "r"], Node.file 420 none),
    (["home"], Node.dir 493),
    (["home", "t"], Node.symlink ["gone"]) ]

/-- A module with no resources and an init script declared. -/
def exModInit : Module :=
  { path := ["mods", "m"],
    definition := { description := none, init := true, cleanup := false,
                    resources := [] } }

/-- A module with no resources and a cleanup script declared. -/
def exModCleanup : Module :=
  { path := ["mods", "m"],
    definition := { description := none, init := false, cleanup := true,
                    resources := [] } }

/-- A modules root with one valid module directory, one directory with a
malformed configuration, and one plain file entry. -/
def exFsRoot : FS :=
  [ (["mods"], Node.dir 493),
    (["mods", "good"], Node.dir 493),
    (["mods", "good", "config.toml"], Node.file 420 (some exDocEmpty)),
    (["mods", "bad"], Node.dir 493),
    (["mods", "bad", "config.toml"], Node.file 420 none),
    (["mods", "notes.txt"], Node.file 420 none) ]

/-- The valid module loaded from exFsRoot. -/
def exModGood : Module :=
  { path := ["mods", "good"],
    definition := { description := none, init := false, cleanup := false,
                    resources := [] } }

/-- A module directory whose configuration is well typed but lacks the
resources key. -/
def exFsNoRes : FS :=
  [ (["mods"], Node.dir 493),
    (["mods", "m"], Node.dir 493),
    (["mods", "m", "config.toml"], Node.file 420 (some exDocNoRes)) ]

/-- The round-trip filesystem exFs after a successful install of exMod:
the created parent directory home/a and the symbolic link home/a/b. -/
def exFsInstalled : FS :=
  [ (["home", "a", "b"], Node.symlink ["mods", "m", "r"]),
    (["home", "a"], Node.dir 493),
    (["mods"], Node.dir 493),
    (["mods", "m"], Node.dir 493),
    (["mods", "m", "config.toml"], Node.file 420 (some exDoc)),
    (["mods", "m", "r"], Node.file 420 none),
    (["home"], Node.dir 493) ]

/-- Filesystem where target t1 is absent and target t2 is a symbolic link
to an existing path other than the declared source. -/
def exFsMismatchOnly : FS :=
  [ (["mods"], Node.dir 493),
    (["mods", "m"], Node.dir 493),
    (["mods", "m", "r1"], Node.file 420 none),
    (["mods", "m", "r2"], Node.file 420 none),
    (["home"], Node.dir 493),
    (["home", "t2"], Node.symlink ["elsewhere"]),
    (["elsewhere"], Node.file 420 none) ]

/-! Theorems. -/

/-- C4: check_permissions mode desired is true exactly when every bit set
in desired is also set in the owner triad mode shifted right by six; it is
a pure total function of its two 32-bit arguments. -/
theorem c4_check_permissions_iff (mode desired : Nat)
    (hm : mode < 2 ^ 32) (hd : desired < 2 ^ 32) :
    check_permissions mode desired = true ↔
      ∀ i, desired.testBit i = true → (mode >>> 6).testBit i = true := by
  unfold check_permissions
  rw [beq_iff_eq]
  constructor
  · intro h i hdi
    have ht : ((mode >>> 6) &&& desired).testBit i = desired.testBit i := by rw [h]
    rw [Nat.testBit_and, hdi] at ht
    cases hmi : (mode >>> 6).testBit i
    · rw [hmi] at ht; simp at ht
    · rfl
  · intro h
    apply Nat.eq_of_testBit_eq
    intro i
    rw [Nat.testBit_and]
    cases hdi : desired.testBit i
    · simp
    · simp [h i hdi]

/-- C4 witness: the four concrete cases from the specification, and the
characterization applied at mode 448 = octal 700 and desired 7. -/
theorem c4_check_permissions_witness :
    check_permissions 448 7 = true ∧ check_permissions 384 3 = false ∧
    check_permissions 448 6 = true ∧ check_permissions 384 7 = false ∧
    (check_permissions 448 7 = true ↔
      ∀ i, (7 : Nat).testBit i = true → ((448 : Nat) >>> 6).testBit i = true) :=
  ⟨by decide, by decide, by decide, by decide,
    c4_check_permissions_iff 448 7 (by norm_num) (by norm_num)⟩

/-- C5: ModuleDef::verify checks the init script first and the cleanup
script second, returning the first failure: a missing or badly permitted
init script yields the ScriptError naming init regardless of the cleanup
script and resources, and when the init check passes, a bad cleanup script
yields the ScriptError naming cleanup regardless of the resources. -/
theorem c5_verify_order (fs : FS) (fuel : Nat) (d : ModuleDef) (mp : List String) :
    (d.init = true →
      (pathExistsB fs fuel (mp ++ ["init.sh"]) = false ∨
        check_permissions (statModeB fs fuel (mp ++ ["init.sh"])) PERMISSIONS_RX = false) →
      d.verify fs fuel mp = Except.error (ModuleError.script (pathName mp) "init")) ∧
    (d.cleanup = true →
      (d.init = true → accessOk fs fuel (mp ++ ["init.sh"]) PERMISSIONS_RX = true) →
      (pathExistsB fs fuel (mp ++ ["cleanup.sh"]) = false ∨
        check_permissions (statModeB fs fuel (mp ++ ["cleanup.sh"])) PERMISSIONS_RX = false) →
      d.verify fs fuel mp = Except.error (ModuleError.script (pathName mp) "cleanup")) := by
  constructor
  · intro hinit hbad
    have hacc : accessOk fs fuel (mp ++ ["init.sh"]) PERMISSIONS_RX = false := by
      rcases hbad with h | h <;> simp [accessOk, h]
    unfold ModuleDef.verify
    simp [hinit, hacc]
  · intro hcl hio hbad
    have hacc : accessOk fs fuel (mp ++ ["cleanup.sh"]) PERMISSIONS_RX = false := by
      rcases hbad with h | h <;> simp [accessOk, h]
    unfold ModuleDef.verify
    cases hi : d.init
    · simp [hi, hcl, hacc]
    · simp [hi, hcl, hacc, hio hi]

/-- C5 witness: a definition declaring init on an empty filesystem fails
with the ScriptError naming init. -/
theorem c5_verify_order_witness :
    ModuleDef.verify [] 1 exModInit.definition ["mods", "m"] =
      Except.error (ModuleError.script (pathName ["mods", "m"]) "init") :=
  (c5_verify_order [] 1 exModInit.definition ["mods", "m"]).1 rfl (Or.inl (by decide))

/-- C6: every failure to open the modules root collapses to the single
Directory error, and Module::list then returns that error alone, never a
partial sequence. -/
theorem c6_list_directory_error (fs : FS) (fuel : Nat) (root : List String)
    (e : ModuleError) (h : Module.readDirFs fs fuel root = Except.error e) :
    e = ModuleError.directory ∧
      Module.list fs fuel root = Except.error ModuleError.directory := by
  have he : e = ModuleError.directory := by
    unfold Module.readDirFs at h
    split at h
    · split at h
      · exact absurd h (by simp)
      · exact (Except.error.inj h).symm
    · exact (Except.error.inj h).symm
  subst he
  exact ⟨rfl, by simp [Module.list, h]⟩

/-- C6 witness: listing a missing root on the empty filesystem. -/
theorem c6_list_directory_error_witness :
    ModuleError.directory = ModuleError.directory ∧
      Module.list [] 1 ["missing"] = Except.error ModuleError.directory :=
  c6_list_directory_error [] 1 ["missing"] ModuleError.directory rfl

/-- C7: Module::list silently drops entries that are not directories and
records the construction outcome of each directory entry: a root whose
enumeration yields one valid module directory, one directory with a
malformed configuration and one non-directory entry produces exactly the
two construction outcomes, one success and one error. -/
theorem c7_list_split (fs : FS) (fuel : Nat) (root : List String)
    (c1 c2 c3 : String) (m1 : Module) (e : ModuleError)
    (hrd : Module.readDirFs fs fuel root = Except.ok [c1, c2, c3])
    (h1 : isDirB fs fuel (root ++ [c1]) = true)
    (h2 : isDirB fs fuel (root ++ [c2]) = true)
    (h3 : isDirB fs fuel (root ++ [c3]) = false)
    (hm1 : Module.new fs fuel (root ++ [c1]) = Except.ok m1)
    (hm2 : Module.new fs fuel (root ++ [c2]) = Except.error e) :
    Module.list fs fuel root = Except.ok [Except.ok m1, Except.error e] := by
  simp [Module.list, hrd, List.filter_cons, h1, h2, h3, hm1, hm2]

/-- C7 witness: the fixture root with directories good and bad and the file
notes.txt lists exactly one success and one parse error. -/
theorem c7_list_split_witness :
    Module.list exFsRoot 3 ["mods"] =
      Except.ok [Except.ok exModGood, Except.error (ModuleError.parse "bad")] :=
  c7_list_split exFsRoot 3 ["mods"] "good" "bad" "notes.txt" exModGood
    (ModuleError.parse "bad") rfl rfl rfl rfl rfl rfl

/-- C9: the resources key of the configuration is mandatory: a well typed
document decodes exactly when resources is present, description and the
init and cleanup flags may each be absent (defaulting to none and false),
and loading a module whose document lacks resources fails with the
ParseError. -/
theorem c9_resources_required :
    (∀ doc : TomlDoc, (decodeModuleDef doc).isSome = true ↔ doc.resources.isSome = true) ∧
    (∀ rs, decodeModuleDef
        { description := none, init := none, cleanup := none, resources := some rs } =
      some { description := none, init := false, cleanup := false, resources := rs }) ∧
    (∀ (fs : FS) (fuel : Nat) (mp : List String) (doc : TomlDoc),
      readConfig fs fuel (mp ++ ["config.toml"]) = some (some doc) →
      doc.resources = none →
      ModuleDef.new fs fuel mp = Except.error (ModuleError.parse (pathName mp))) := by
  refine ⟨?_, ?_, ?_⟩
  · intro doc
    cases hr : doc.resources <;> simp [decodeModuleDef, hr]
  · intro rs
    simp [decodeModuleDef]
  · intro fs fuel mp doc hrc hres
    unfold ModuleDef.new
    rw [hrc]
    simp [decodeModuleDef, hres]

/-- C9 witness: loading the fixture whose configuration lacks resources
fails with the ParseError naming the module. -/
theorem c9_resources_required_witness :
    ModuleDef.new exFsNoRes 2 ["mods", "m"] =
      Except.error (ModuleError.parse (pathName ["mods", "m"])) :=
  c9_resources_required.2.2 exFsNoRes 2 ["mods", "m"] exDocNoRes rfl rfl

/-- C8 counterexample: a module declaring init whose script exits with a
non-zero status makes install fail with an Exec error whose detail field is
the script file name init.sh, which differs from the label init stated by
the claim. -/
theorem c8_exec_label_counterexample :
    (Module.install exFs 4 ["home"] exModInit false (some false)).2 =
      Except.error (ModuleError.exec "m" "init.sh") ∧
    ModuleError.exec "m" "init.sh" ≠ ModuleError.exec "m" "init" :=
  ⟨rfl, by decide⟩

/-- C8 amended: when the preceding phases succeed and the declared script
exits with a non-zero status, install fails with ExecError carrying the
script file name init.sh, and uninstall with ExecError carrying
cleanup.sh. -/
theorem c8_exec_label_amended :
    (∀ (fs fs1 fs2 : FS) (fuel : Nat) (home : List String) (m : Module) (re : Bool),
      preflight fs fuel m.name home re (m.definition.resources.map (·.2)) =
          (fs1, Except.ok ()) →
      linkPhase fuel m.name home m.path fs1 m.definition.resources = (fs2, Except.ok ()) →
      m.definition.init = true →
      Module.install fs fuel home m re (some false) =
        (fs2, Except.error (ModuleError.exec m.name "init.sh"))) ∧
    (∀ (fs fs2 : FS) (fuel : Nat) (home : List String) (m : Module),
      uverify fs fuel m.name home m.path m.definition.resources = Except.ok () →
      removalPhase fuel m.name home fs (m.definition.resources.map (·.2)) =
          (fs2, Except.ok ()) →
      m.definition.cleanup = true →
      Module.uninstall fs fuel home m false (some false) =
        (fs2, Except.error (ModuleError.exec m.name "cleanup.sh"))) := by
  constructor
  · intro fs fs1 fs2 fuel home m re hp hl hi
    simp [Module.install, hp, hl, hi, runScript]
  · intro fs fs2 fuel home m hu hr hc
    simp [Module.uninstall, hu, hr, hc, runScript]

/-! Store lemmas. -/

/-- The root is always a directory. -/
theorem fsGet_root (fs : FS) : fsGet fs [] = some (Node.dir 493) := by
  simp [fsGet]

/-- Appending one component never yields the empty path. -/
theorem append_singleton_ne_nil (cur : List String) (c : String) : cur ++ [c] ≠ [] := by
  simp

/-- Reading back a fresh binding. -/
theorem fsGet_set_eq (fs : FS) (p : List String) (n : Node) (h : p ≠ []) :
    fsGet (fsSet fs p n) p = some n := by
  simp [fsGet, fsSet, fsFind, h]

/-- A fresh binding does not affect other paths. -/
theorem fsGet_set_ne (fs : FS) (p q : List String) (n : Node) (h : q ≠ p) :
    fsGet (fsSet fs p n) q = fsGet fs q := by
  by_cases hq : q = []
  · simp [fsGet, hq]
  · simp [fsGet, fsSet, fsFind, hq]
    intro he
    exact absurd he.symm h

/-- Erasure removes every binding of the key. -/
theorem fsFind_erase_self (fs : FS) (p : List String) :
    fsFind (fsErase fs p) p = none := by
  induction fs with
  | nil => rfl
  | cons e rest ih =>
    obtain ⟨k, v⟩ := e
    by_cases he : k = p
    · simp [fsErase, he, ih]
    · simp [fsErase, he, fsFind, ih]

/-- Erasure does not affect other keys. -/
theorem fsFind_erase_ne (fs : FS) (p q : List String) (h : q ≠ p) :
    fsFind (fsErase fs p) q = fsFind fs q := by
  induction fs with
  | nil => rfl
  | cons e rest ih =>
    obtain ⟨k, v⟩ := e
    by_cases he : k = p
    · subst he
      have hkq : ¬ (k = q) := fun hc => h hc.symm
      simp [fsErase, fsFind, ih, hkq]
    · simp [fsErase, he, fsFind, ih]

/-- Erasing a non-root path empties it. -/
theorem fsGet_erase_self (fs : FS) (p : List String) (h : p ≠ []) :
    fsGet (fsErase fs p) p = none := by
  simp [fsGet, h, fsFind_erase_self]

/-- Erasing a path does not affect other paths. -/
theorem fsGet_erase_ne (fs : FS) (p q : List String) (h : q ≠ p) :
    fsGet (fsErase fs p) q = fsGet fs q := by
  by_cases hq : q = []
  · simp [fsGet, hq]
  · simp [fsGet, hq, fsFind_erase_ne fs p q h]

/-! Path-walking lemmas. -/

/-- A walk whose intermediate entries are plain directories and whose final
entry is not a symbolic link ends at the joined path. -/
theorem walkPlain_dirs (fs : FS) :
    ∀ (rest cur : List String),
      (∀ n, 1 ≤ n → n < rest.length →
        ∃ mo, fsGet fs (cur ++ rest.take n) = some (Node.dir mo)) →
      (∀ t, fsGet fs (cur ++ rest) ≠ some (Node.symlink t)) →
      walkPlain fs cur rest = Sum.inl (some (cur ++ rest)) := by
  intro rest
  induction rest with
  | nil => intro cur _ _; simp [walkPlain]
  | cons c rs ih =>
    intro cur hmid hend
    rcases hg : fsGet fs (cur ++ [c]) with _ | n
    · cases rs with
      | nil => simp [walkPlain, hg]
      | cons c2 rs2 =>
        exfalso
        obtain ⟨mo, hmo⟩ := hmid 1 (by omega) (by simp)
        simp [List.take_succ_cons, hg] at hmo
    · cases n with
      | file mo cnt =>
        cases rs with
        | nil => simp [walkPlain, hg]
        | cons c2 rs2 =>
          exfalso
          obtain ⟨mo2, hmo⟩ := hmid 1 (by omega) (by simp)
          simp [List.take_succ_cons, hg] at hmo
      | dir mo =>
        have step : walkPlain fs cur (c :: rs) = walkPlain fs (cur ++ [c]) rs := by
          simp only [walkPlain, hg]
        rw [step]
        have hmid' : ∀ n, 1 ≤ n → n < rs.length →
            ∃ mo2, fsGet fs ((cur ++ [c]) ++ rs.take n) = some (Node.dir mo2) := by
          intro n h1 hn
          have := hmid (n + 1) (by omega) (by simp; omega)
          rw [List.take_succ_cons] at this
          simpa [List.append_assoc] using this
        have hend' : ∀ t, fsGet fs ((cur ++ [c]) ++ rs) ≠ some (Node.symlink t) := by
          intro t
          have := hend t
          simpa [List.append_assoc] using this
        rw [ih (cur ++ [c]) hmid' hend']
        simp [List.append_assoc]
      | symlink t =>
        exfalso
        cases rs with
        | nil => exact hend t (by simpa using hg)
        | cons c2 rs2 =>
          obtain ⟨mo, hmo⟩ := hmid 1 (by omega) (by simp)
          simp [List.take_succ_cons, hg] at hmo

/-- A walk whose intermediate entries are plain directories and whose final
entry is a symbolic link suspends at that link with no trailing
components. -/
theorem walkPlain_symEnd (fs : FS) :
    ∀ (rest cur d : List String), rest ≠ [] →
      (∀ n, 1 ≤ n → n < rest.length →
        ∃ mo, fsGet fs (cur ++ rest.take n) = some (Node.dir mo)) →
      fsGet fs (cur ++ rest) = some (Node.symlink d) →
      walkPlain fs cur rest = Sum.inr d := by
  intro rest
  induction rest with
  | nil => intro cur d hne _ _; exact absurd rfl hne
  | cons c rs ih =>
    intro cur d _ hmid hend
    cases rs with
    | nil =>
      have hg : fsGet fs (cur ++ [c]) = some (Node.symlink d) := by simpa using hend
      simp [walkPlain, hg]
    | cons c2 rs2 =>
      obtain ⟨mo, hmo⟩ := hmid 1 (by omega) (by simp)
      rw [List.take_succ_cons, List.take_zero] at hmo
      have step : walkPlain fs cur (c :: c2 :: rs2) = walkPlain fs (cur ++ [c]) (c2 :: rs2) := by
        simp only [walkPlain, hmo]
      rw [step]
      apply ih (cur ++ [c]) d (by simp)
      · intro n h1 hn
        have := hmid (n + 1) (by omega)
          (by simp only [List.length_cons] at hn ⊢; omega)
        rw [List.take_succ_cons] at this
        simpa [List.append_assoc] using this
      · simpa [List.append_assoc] using hend

/-- A walk whose intermediate entries are unobstructive (absent or plain
directories) and whose final entry is not a symbolic link either fails or
ends at the joined path. -/
theorem walkPlain_okPre (fs : FS) :
    ∀ (rest cur : List String),
      (∀ n, 1 ≤ n → n < rest.length → OkPre fs (cur ++ rest.take n)) →
      (∀ t, fsGet fs (cur ++ rest) ≠ some (Node.symlink t)) →
      walkPlain fs cur rest = Sum.inl none ∨
        walkPlain fs cur rest = Sum.inl (some (cur ++ rest)) := by
  intro rest
  induction rest with
  | nil => intro cur _ _; right; simp [walkPlain]
  | cons c rs ih =>
    intro cur hmid hend
    rcases hg : fsGet fs (cur ++ [c]) with _ | n
    · cases rs with
      | nil => right; simp [walkPlain, hg]
      | cons c2 rs2 => left; simp [walkPlain, hg]
    · cases n with
      | file mo cnt =>
        cases rs with
        | nil => right; simp [walkPlain, hg]
        | cons c2 rs2 =>
          exfalso
          have h2 : fsGet fs (cur ++ (c :: c2 :: rs2).take 1) = none ∨
              ∃ mo2, fsGet fs (cur ++ (c :: c2 :: rs2).take 1) = some (Node.dir mo2) :=
            hmid 1 (by omega) (by simp)
          rw [List.take_succ_cons, List.take_zero] at h2
          rcases h2 with hnone | ⟨mo2, hmo2⟩
          · simp [hg] at hnone
          · simp [hg] at hmo2
      | dir mo =>
        have step : walkPlain fs cur (c :: rs) = walkPlain fs (cur ++ [c]) rs := by
          simp only [walkPlain, hg]
        rw [step]
        have hmid' : ∀ n, 1 ≤ n → n < rs.length → OkPre fs ((cur ++ [c]) ++ rs.take n) := by
          intro n h1 hn
          have := hmid (n + 1) (by omega) (by simp; omega)
          rw [List.take_succ_cons] at this
          simpa [OkPre, List.append_assoc] using this
        have hend' : ∀ t, fsGet fs ((cur ++ [c]) ++ rs) ≠ some (Node.symlink t) := by
          intro t
          have := hend t
          simpa [List.append_assoc] using this
        rcases ih (cur ++ [c]) hmid' hend' with h1 | h1
        · left; exact h1
        · right; rw [h1]; simp [List.append_assoc]
      | symlink t =>
        exfalso
        cases rs with
        | nil => exact hend t (by simpa using hg)
        | cons c2 rs2 =>
          have h2 : fsGet fs (cur ++ (c :: c2 :: rs2).take 1) = none ∨
              ∃ mo2, fsGet fs (cur ++ (c :: c2 :: rs2).take 1) = some (Node.dir mo2) :=
            hmid 1 (by omega) (by simp)
          rw [List.take_succ_cons, List.take_zero] at h2
          rcases h2 with hnone | ⟨mo2, hmo2⟩
          · simp [hg] at hnone
          · simp [hg] at hmo2

/-- A finished walk needs no fuel. -/
theorem resolveLoop_inl (fs : FS) (fuel : Nat) (r : Option (List String)) :
    resolveLoop fs fuel (Sum.inl r) = r := by
  cases fuel <;> rfl

/-- Resolution along plain directories ending in a non-link reaches the
joined path for any fuel. -/
theorem resolveSt_dirs (fs : FS) (fuel : Nat) (rest cur : List String)
    (hmid : ∀ n, 1 ≤ n → n < rest.length →
      ∃ mo, fsGet fs (cur ++ rest.take n) = some (Node.dir mo))
    (hend : ∀ t, fsGet fs (cur ++ rest) ≠ some (Node.symlink t)) :
    resolveSt fs fuel cur rest = some (cur ++ rest) := by
  unfold resolveSt
  rw [walkPlain_dirs fs rest cur hmid hend, resolveLoop_inl]

/-- Resolution along plain directories ending in a symbolic link continues
at the link target, consuming one unit of fuel. -/
theorem resolveSt_symEnd (fs : FS) (fuel : Nat) (rest cur d : List String)
    (hne : rest ≠ [])
    (hmid : ∀ n, 1 ≤ n → n < rest.length →
      ∃ mo, fsGet fs (cur ++ rest.take n) = some (Node.dir mo))
    (hend : fsGet fs (cur ++ rest) = some (Node.symlink d)) :
    resolveSt fs (fuel + 1) cur rest = resolveSt fs fuel [] d := by
  unfold resolveSt
  rw [walkPlain_symEnd fs rest cur d hne hmid hend]
  rfl

/-- A clean target does not exist for stat: the walk either fails or ends
at an empty entry. -/
theorem pathExistsB_of_cleanTgt (fs : FS) (fuel : Nat) (p : List String)
    (h : CleanTgt fs p) : pathExistsB fs fuel p = false := by
  obtain ⟨hp, hpre⟩ := h
  have hok := walkPlain_okPre fs p []
    (by intro n _ hn; simpa using hpre n hn)
    (by intro t; simp [hp])
  rcases hok with h1 | h1
  · simp [pathExistsB, statNode, resolveSt, h1, resolveLoop_inl]
  · simp [pathExistsB, statNode, resolveSt, h1, resolveLoop_inl, hp]

/-- A path whose entries are all unobstructive either does not exist or is
a directory. -/
theorem pathExistsB_false_or_isDirB (fs : FS) (fuel : Nat) (p : List String)
    (h : ∀ n, n ≤ p.length → OkPre fs (p.take n)) :
    pathExistsB fs fuel p = false ∨ isDirB fs fuel p = true := by
  have hend : OkPre fs p := by
    have := h p.length (Nat.le_refl _)
    rwa [List.take_length] at this
  rcases hend with hnone | ⟨mo, hdir⟩
  · left
    exact pathExistsB_of_cleanTgt fs fuel p ⟨hnone, fun n hn => h n (Nat.le_of_lt hn)⟩
  · have hok := walkPlain_okPre fs p []
      (by intro n _ hn; simpa using h n (Nat.le_of_lt hn))
      (by intro t; simp [hdir])
    rcases hok with h1 | h1
    · left; simp [pathExistsB, statNode, resolveSt, h1, resolveLoop_inl]
    · right; simp [isDirB, statNode, resolveSt, h1, resolveLoop_inl, hdir]

/-- stat on a plain file chain returns the file node for any fuel. -/
theorem statNode_of_plainFile (fs : FS) (fuel : Nat) (p : List String)
    (h : PlainFile fs p) :
    ∃ mo c, statNode fs fuel p = some (Node.file mo c) := by
  obtain ⟨⟨mo, c, hf⟩, hpre⟩ := h
  have hw := walkPlain_dirs fs p []
    (by intro n _ hn; simpa using hpre n hn)
    (by intro t; simp [hf])
  exact ⟨mo, c, by simp [statNode, resolveSt, hw, resolveLoop_inl, hf]⟩

/-- A plain file chain exists for stat. -/
theorem pathExistsB_of_plainFile (fs : FS) (fuel : Nat) (p : List String)
    (h : PlainFile fs p) : pathExistsB fs fuel p = true := by
  obtain ⟨mo, c, hs⟩ := statNode_of_plainFile fs fuel p h
  simp [pathExistsB, hs]

/-- A plain file chain is a file for stat. -/
theorem isFileB_of_plainFile (fs : FS) (fuel : Nat) (p : List String)
    (h : PlainFile fs p) : isFileB fs fuel p = true := by
  obtain ⟨mo, c, hs⟩ := statNode_of_plainFile fs fuel p h
  simp [isFileB, hs]

/-- stat through a symbolic link sitting at the end of a plain directory
chain equals stat of the link target, one unit of fuel down. -/
theorem statNode_symlink_step (fs : FS) (fuel : Nat) (p d : List String)
    (hp : p ≠ [])
    (hpre : ∀ n, n < p.length → ∃ mo, fsGet fs (p.take n) = some (Node.dir mo))
    (hl : fsGet fs p = some (Node.symlink d)) :
    statNode fs (fuel + 1) p = statNode fs fuel d := by
  have hw := resolveSt_symEnd fs fuel p [] d hp
    (by intro n _ hn; simpa using hpre n hn)
    (by simpa using hl)
  simp only [statNode]
  rw [hw]

/-- Parent resolution along a plain directory chain returns the path
itself. -/
theorem resolveParent_plain (fs : FS) (fuel : Nat) (p : List String)
    (hp : p ≠ [])
    (hpre : ∀ n, n < p.length → ∃ mo, fsGet fs (p.take n) = some (Node.dir mo)) :
    resolveParent fs fuel p = some p := by
  unfold resolveParent
  rw [List.getLast?_eq_getLast_of_ne_nil hp]
  have hlen : 0 < p.length := List.length_pos.mpr hp
  have hdl : p.dropLast = p.take (p.length - 1) := List.dropLast_eq_take p
  have hmid : ∀ n, 1 ≤ n → n < p.dropLast.length →
      ∃ mo, fsGet fs ([] ++ p.dropLast.take n) = some (Node.dir mo) := by
    intro n _ hn
    have hn' : n < p.length - 1 := by
      rw [hdl] at hn
      have := List.length_take (p.length - 1) p
      omega
    rw [List.nil_append, hdl, List.take_take, min_eq_left (by omega : n ≤ p.length - 1)]
    exact hpre n (by omega)
  have hendl : ∀ t, fsGet fs ([] ++ p.dropLast) ≠ some (Node.symlink t) := by
    intro t
    obtain ⟨mo, hmo⟩ := hpre (p.length - 1) (by omega)
    rw [List.nil_append, hdl, hmo]
    simp
  have hres := resolveSt_dirs fs fuel p.dropLast [] hmid hendl
  rw [List.nil_append] at hres
  obtain ⟨mo, hmo⟩ := hpre (p.length - 1) (by omega)
  rw [← hdl] at hmo
  simp only [hres, hmo]
  rw [List.dropLast_append_getLast hp]

/-- read_link on a symbolic link at the end of a plain directory chain
returns the stored target. -/
theorem readLinkFs_plain (fs : FS) (fuel : Nat) (p d : List String)
    (hp : p ≠ [])
    (hpre : ∀ n, n < p.length → ∃ mo, fsGet fs (p.take n) = some (Node.dir mo))
    (hl : fsGet fs p = some (Node.symlink d)) :
    readLinkFs fs fuel p = some d := by
  simp only [readLinkFs, resolveParent_plain fs fuel p hp hpre, hl]

/-- remove_file on a non-directory entry at the end of a plain directory
chain erases exactly that entry. -/
theorem removeFileFs_plain (fs : FS) (fuel : Nat) (p : List String) (v : Node)
    (hp : p ≠ [])
    (hpre : ∀ n, n < p.length → ∃ mo, fsGet fs (p.take n) = some (Node.dir mo))
    (hv : fsGet fs p = some v) (hnd : ∀ mo, v ≠ Node.dir mo) :
    removeFileFs fs fuel p = some (fsErase fs p) := by
  cases v with
  | dir mo => exact absurd rfl (hnd mo)
  | file mo c =>
    simp only [removeFileFs, resolveParent_plain fs fuel p hp hpre, hv]
  | symlink t =>
    simp only [removeFileFs, resolveParent_plain fs fuel p hp hpre, hv]

/-- The Boolean clean-target test implies the propositional form. -/
theorem cleanTgtB_clean (fs : FS) (p : List String) (h : cleanTgtB fs p = true) :
    CleanTgt fs p := by
  unfold cleanTgtB at h
  rw [Bool.and_eq_true] at h
  obtain ⟨h1, h2⟩ := h
  refine ⟨Option.isNone_iff_eq_none.mp h1, ?_⟩
  intro n hn
  have hall := List.all_eq_true.mp h2 n (List.mem_range.mpr hn)
  unfold OkPre
  rcases hg : fsGet fs (p.take n) with _ | nd
  · exact Or.inl rfl
  · cases nd with
    | dir mo => exact Or.inr ⟨mo, rfl⟩
    | file mo c => simp [okPreB, hg] at hall
    | symlink t => simp [okPreB, hg] at hall

/-- The Boolean plain-file test implies the propositional form. -/
theorem plainFileB_plain (fs : FS) (p : List String) (h : plainFileB fs p = true) :
    PlainFile fs p := by
  unfold plainFileB at h
  rw [Bool.and_eq_true] at h
  obtain ⟨h1, h2⟩ := h
  constructor
  · rcases hg : fsGet fs p with _ | nd
    · rw [hg] at h1; simp at h1
    · cases nd with
      | file mo c => exact ⟨mo, c, rfl⟩
      | dir mo => rw [hg] at h1; simp at h1
      | symlink t => rw [hg] at h1; simp at h1
  · intro n hn
    have hall := List.all_eq_true.mp h2 n (List.mem_range.mpr hn)
    rcases hg : fsGet fs (p.take n) with _ | nd
    · rw [hg] at hall; simp at hall
    · cases nd with
      | dir mo => exact ⟨mo, rfl⟩
      | file mo c => rw [hg] at hall; simp at hall
      | symlink t => rw [hg] at hall; simp at hall

/-- A list is a Boolean prefix of itself extended. -/
theorem isPrefixOf_append (a s : List String) : a.isPrefixOf (a ++ s) = true := by
  induction a with
  | nil => simp [List.isPrefixOf]
  | cons x xs ih => simp [List.isPrefixOf, ih]

/-- A failing Boolean prefix test refutes extension. -/
theorem not_under_of_isPrefixOf_false (a b : List String)
    (h : a.isPrefixOf b = false) : ¬ ∃ s, a ++ s = b := by
  rintro ⟨s, rfl⟩
  rw [isPrefixOf_append] at h
  exact Bool.noConfusion h

/-- The Boolean freeness test yields pairwise non-extension. -/
theorem targetsFreeB_pairwise (l : List (List String)) (h : targetsFreeB l = true) :
    List.Pairwise (fun a b => (¬ ∃ s, a ++ s = b) ∧ (¬ ∃ s, b ++ s = a)) l := by
  induction l with
  | nil => exact List.Pairwise.nil
  | cons t ts ih =>
    unfold targetsFreeB at h
    rw [Bool.and_eq_true] at h
    obtain ⟨h1, h2⟩ := h
    refine List.Pairwise.cons ?_ (ih h2)
    intro u hu
    have hb := List.all_eq_true.mp h1 u hu
    rw [Bool.and_eq_true] at hb
    exact ⟨not_under_of_isPrefixOf_false t u (by simpa using hb.1),
           not_under_of_isPrefixOf_false u t (by simpa using hb.2)⟩

/-- The ancestor loop accepts a list of paths that each either do not exist
or are directories. -/
theorem vmc_go_ok (fs : FS) (fuel : Nat) (l : List (List String))
    (h : ∀ a ∈ l, pathExistsB fs fuel a = false ∨ isDirB fs fuel a = true) :
    verifyModuleCreation.go fs fuel l = Except.ok () := by
  induction l with
  | nil => rfl
  | cons a rest ih =>
    have ha := h a (by simp)
    have hcond : (pathExistsB fs fuel a && !(isDirB fs fuel a)) = false := by
      rcases ha with h1 | h1 <;> simp [h1]
    simp only [verifyModuleCreation.go, hcond, Bool.false_eq_true, if_false]
    exact ih (fun b hb => h b (by simp [hb]))

/-- Ancestor validation succeeds on a clean target. -/
theorem vmc_ok_of_clean (fs : FS) (fuel : Nat) (p : List String)
    (h : CleanTgt fs p) : verifyModuleCreation fs fuel p = Except.ok () := by
  unfold verifyModuleCreation
  apply vmc_go_ok
  intro a ha
  unfold ancPaths at ha
  simp only [List.mem_map, List.mem_reverse, List.mem_range] at ha
  obtain ⟨k, hk, rfl⟩ := ha
  apply pathExistsB_false_or_isDirB
  intro n hn
  have hkl := List.length_take k p
  rw [List.take_take]
  have hnk : n ≤ k := by rw [hkl] at hn; omega
  have hnlen : n ≤ p.length := by rw [hkl] at hn; omega
  rw [min_eq_left hnk]
  rcases Nat.lt_or_ge n p.length with hlt | hge
  · exact h.2 n hlt
  · have heq : n = p.length := Nat.le_antisymm hnlen hge
    subst heq
    rw [List.take_length]
    exact Or.inl h.1

/-- preflight without force on clean targets checks everything and changes
nothing. -/
theorem preflight_clean (fs : FS) (fuel : Nat) (name : String) (home : List String) :
    ∀ ts, (∀ t ∈ ts, CleanTgt fs (home ++ t)) →
      preflight fs fuel name home false ts = (fs, Except.ok ()) := by
  intro ts
  induction ts with
  | nil => intro _; rfl
  | cons t rest ih =>
    intro h
    have hc := h t (by simp)
    have hex : pathExistsB fs fuel (home ++ t) = false :=
      pathExistsB_of_cleanTgt fs fuel _ hc
    have hv : verifyModuleCreation fs fuel (home ++ t) = Except.ok () :=
      vmc_ok_of_clean fs fuel _ hc
    simp only [preflight, hex, hv, Bool.false_and, Bool.false_eq_true, if_false]
    exact ih (fun u hu => h u (by simp [hu]))

/-- C8 witness: the amended statement applied to fixture modules with no
resources and a failing init or cleanup script. -/
theorem c8_exec_label_witness :
    Module.install exFs 4 ["home"] exModInit false (some false) =
      (exFs, Except.error (ModuleError.exec exModInit.name "init.sh")) ∧
    Module.uninstall exFs 4 ["home"] exModCleanup false (some false) =
      (exFs, Except.error (ModuleError.exec exModCleanup.name "cleanup.sh")) :=
  ⟨c8_exec_label_amended.1 exFs exFs exFs 4 ["home"] exModInit false rfl rfl rfl,
   c8_exec_label_amended.2 exFs exFs 4 ["home"] exModCleanup rfl rfl rfl⟩

/-- preflight without force fails with the Install conflict of the first
existing target when every absent target passes ancestor validation, and
changes nothing. -/
theorem preflight_conflict (fs : FS) (fuel : Nat) (name : String) (home : List String) :
    ∀ ts, (∃ t ∈ ts, pathExistsB fs fuel (home ++ t) = true) →
      (∀ t ∈ ts, pathExistsB fs fuel (home ++ t) = false →
        verifyModuleCreation fs fuel (home ++ t) = Except.ok ()) →
      ∃ t ∈ ts, pathExistsB fs fuel (home ++ t) = true ∧
        preflight fs fuel name home false ts =
          (fs, Except.error (ModuleError.install name (home ++ t))) := by
  intro ts
  induction ts with
  | nil =>
    rintro ⟨t, ht, _⟩ _
    exact absurd ht (List.not_mem_nil t)
  | cons t rest ih =>
    rintro ⟨u, hu, hex⟩ hclean
    by_cases het : pathExistsB fs fuel (home ++ t) = true
    · refine ⟨t, by simp, het, ?_⟩
      simp [preflight, het]
    · have hf : pathExistsB fs fuel (home ++ t) = false := by
        cases hb : pathExistsB fs fuel (home ++ t)
        · rfl
        · exact absurd hb het
      have hv := hclean t (by simp) hf
      have hex' : ∃ u ∈ rest, pathExistsB fs fuel (home ++ u) = true := by
        rcases List.mem_cons.mp hu with rfl | hmem
        · exact absurd hex het
        · exact ⟨u, hmem, hex⟩
      obtain ⟨w, hw, hwex, hwpre⟩ := ih hex' (fun v hv' => hclean v (by simp [hv']))
      refine ⟨w, by simp [hw], hwex, ?_⟩
      simp [preflight, hf, hv, hwpre]

/-- C2 counterexample: with the first target absent behind a blocking
ancestor file and the second target existing, install without force fails
with InstallPath, not with the InstallConflict of the existing target that
the claim asserts. -/
theorem c2_install_conflict_counterexample :
    pathExistsB exFsMixed 4 (["home"] ++ ["x"]) = true ∧
    (["r2"], ["x"]) ∈ exModTwo.definition.resources ∧
    (∀ rt ∈ exModTwo.definition.resources,
      Module.install exFsMixed 4 ["home"] exModTwo false none ≠
        (exFsMixed, Except.error (ModuleError.install exModTwo.name (["home"] ++ rt.2)))) ∧
    Module.install exFsMixed 4 ["home"] exModTwo false none =
      (exFsMixed, Except.error (ModuleError.installPath "m" ["home", "a"])) := by
  refine ⟨rfl, by decide, ?_, rfl⟩
  intro rt hrt
  rcases List.mem_cons.mp hrt with rfl | h2
  · decide
  · rcases List.mem_cons.mp h2 with rfl | h3
    · decide
    · exact absurd h3 (List.not_mem_nil _)

/-- C2 amended: when some resource target exists and every absent target
passes ancestor validation, install without force fails with the
InstallConflict of an existing target, the preflight having modified
nothing, so no link is created and the filesystem is returned unchanged;
re-running install on an already linked module with at least one resource
is the all-targets-exist instance. -/
theorem c2_install_conflict_amended (fs : FS) (fuel : Nat) (home : List String)
    (m : Module) (initRes : Option Bool)
    (hex : ∃ rt ∈ m.definition.resources, pathExistsB fs fuel (home ++ rt.2) = true)
    (hclean : ∀ rt ∈ m.definition.resources,
      pathExistsB fs fuel (home ++ rt.2) = false →
      verifyModuleCreation fs fuel (home ++ rt.2) = Except.ok ()) :
    ∃ rt ∈ m.definition.resources, pathExistsB fs fuel (home ++ rt.2) = true ∧
      Module.install fs fuel home m false initRes =
        (fs, Except.error (ModuleError.install m.name (home ++ rt.2))) := by
  have hex' : ∃ t ∈ m.definition.resources.map (·.2),
      pathExistsB fs fuel (home ++ t) = true := by
    obtain ⟨rt, hrt, h⟩ := hex
    exact ⟨rt.2, List.mem_map.mpr ⟨rt, hrt, rfl⟩, h⟩
  have hclean' : ∀ t ∈ m.definition.resources.map (·.2),
      pathExistsB fs fuel (home ++ t) = false →
      verifyModuleCreation fs fuel (home ++ t) = Except.ok () := by
    intro t ht hf
    obtain ⟨rt, hrt, rfl⟩ := List.mem_map.mp ht
    exact hclean rt hrt hf
  obtain ⟨t, ht, htex, hpre⟩ :=
    preflight_conflict fs fuel m.name home (m.definition.resources.map (·.2)) hex' hclean'
  obtain ⟨rt, hrt, rfl⟩ := List.mem_map.mp ht
  refine ⟨rt, hrt, htex, ?_⟩
  simp [Module.install, hpre]

/-- C2 witness: re-running install on the already linked fixture fails with
the InstallConflict of its target, leaving the filesystem unchanged. -/
theorem c2_install_conflict_witness :
    ∃ rt ∈ exMod.definition.resources,
      pathExistsB exFsInstalled 4 (["home"] ++ rt.2) = true ∧
      Module.install exFsInstalled 4 ["home"] exMod false none =
        (exFsInstalled,
          Except.error (ModuleError.install exMod.name (["home"] ++ rt.2))) :=
  c2_install_conflict_amended exFsInstalled 4 ["home"] exMod none
    ⟨(["r"], ["a", "b"]), by decide, rfl⟩
    (by
      intro rt hrt hf
      rcases List.mem_cons.mp hrt with rfl | h2
      · exact absurd hf (by decide)
      · exact absurd h2 (List.not_mem_nil _))

/-- The uninstall verification pass fails with the mismatch of the first
mismatched resource when every existing target reads as a link. -/
theorem uverify_mismatch (fs : FS) (fuel : Nat) (name : String) (home mp : List String) :
    ∀ rs, (∀ rt ∈ rs, pathExistsB fs fuel (home ++ rt.2) = true →
        ∃ a, readLinkFs fs fuel (home ++ rt.2) = some a) →
      (∃ rt ∈ rs, pathExistsB fs fuel (home ++ rt.2) = true ∧
        ∃ a, readLinkFs fs fuel (home ++ rt.2) = some a ∧ a ≠ mp ++ rt.1) →
      ∃ rt ∈ rs, ∃ a, readLinkFs fs fuel (home ++ rt.2) = some a ∧ a ≠ mp ++ rt.1 ∧
        uverify fs fuel name home mp rs =
          Except.error (ModuleError.uninstall name a) := by
  intro rs
  induction rs with
  | nil =>
    rintro _ ⟨rt, hrt, _⟩
    exact absurd hrt (List.not_mem_nil rt)
  | cons rt rest ih =>
    rintro hlinks ⟨u, hu, huex, a, hua, hane⟩
    by_cases hex : pathExistsB fs fuel (home ++ rt.2) = true
    · obtain ⟨b, hb⟩ := hlinks rt (by simp) hex
      by_cases hbe : b = mp ++ rt.1
      · subst hbe
        have step : uverify fs fuel name home mp (rt :: rest) =
            uverify fs fuel name home mp rest := by
          simp [uverify, hex, hb]
        have hrest : ∃ v ∈ rest, pathExistsB fs fuel (home ++ v.2) = true ∧
            ∃ a, readLinkFs fs fuel (home ++ v.2) = some a ∧ a ≠ mp ++ v.1 := by
          rcases List.mem_cons.mp hu with rfl | hmem
          · rw [hua] at hb
            exact absurd (Option.some.inj hb) hane
          · exact ⟨u, hmem, huex, a, hua, hane⟩
        obtain ⟨w, hw, c, hc, hcne, hcu⟩ :=
          ih (fun v hv => hlinks v (by simp [hv])) hrest
        exact ⟨w, by simp [hw], c, hc, hcne, by rw [step]; exact hcu⟩
      · refine ⟨rt, by simp, b, hb, hbe, ?_⟩
        simp [uverify, hex, hb, hbe]
    · have hf : pathExistsB fs fuel (home ++ rt.2) = false := by
        cases hc : pathExistsB fs fuel (home ++ rt.2)
        · rfl
        · exact absurd hc hex
      have step : uverify fs fuel name home mp (rt :: rest) =
          uverify fs fuel name home mp rest := by
        simp [uverify, hf]
      have hrest : ∃ v ∈ rest, pathExistsB fs fuel (home ++ v.2) = true ∧
          ∃ a, readLinkFs fs fuel (home ++ v.2) = some a ∧ a ≠ mp ++ v.1 := by
        rcases List.mem_cons.mp hu with rfl | hmem
        · exact absurd huex hex
        · exact ⟨u, hmem, huex, a, hua, hane⟩
      obtain ⟨w, hw, c, hc, hcne, hcu⟩ :=
        ih (fun v hv => hlinks v (by simp [hv])) hrest
      exact ⟨w, by simp [hw], c, hc, hcne, by rw [step]; exact hcu⟩

/-- C3 counterexample: with the first target a regular file (unreadable as
a link) and the second an existing symbolic link to the wrong path,
uninstall without force fails with IOError, not with the UninstallMismatch
the claim asserts; the verification pass stops early rather than running to
completion, though it still precedes all removals and deletes nothing. -/
theorem c3_uninstall_mismatch_counterexample :
    pathExistsB exFsMismatch 4 ["home", "t2"] = true ∧
    readLinkFs exFsMismatch 4 ["home", "t2"] = some ["elsewhere"] ∧
    ["elsewhere"] ≠ exModT12.path ++ ["r2"] ∧
    Module.uninstall exFsMismatch 4 ["home"] exModT12 false none =
      (exFsMismatch, Except.error (ModuleError.ioErr "m")) :=
  ⟨rfl, rfl, by decide, rfl⟩

/-- C3 amended: when every existing target reads as a symbolic link and
some existing target resolves to a path other than the declared source,
uninstall without force fails with the UninstallMismatch carrying the first
mismatched link target, and the filesystem is returned unchanged: the
verification failure precedes every removal. -/
theorem c3_uninstall_mismatch_amended (fs : FS) (fuel : Nat) (home : List String)
    (m : Module) (cleanupRes : Option Bool)
    (hlinks : ∀ rt ∈ m.definition.resources,
      pathExistsB fs fuel (home ++ rt.2) = true →
      ∃ a, readLinkFs fs fuel (home ++ rt.2) = some a)
    (hmis : ∃ rt ∈ m.definition.resources,
      pathExistsB fs fuel (home ++ rt.2) = true ∧
      ∃ a, readLinkFs fs fuel (home ++ rt.2) = some a ∧ a ≠ m.path ++ rt.1) :
    ∃ rt ∈ m.definition.resources, ∃ a,
      readLinkFs fs fuel (home ++ rt.2) = some a ∧ a ≠ m.path ++ rt.1 ∧
      Module.uninstall fs fuel home m false cleanupRes =
        (fs, Except.error (ModuleError.uninstall m.name a)) := by
  obtain ⟨rt, hrt, a, ha, hane, hu⟩ :=
    uverify_mismatch fs fuel m.name home m.path m.definition.resources hlinks hmis
  exact ⟨rt, hrt, a, ha, hane, by simp [Module.uninstall, hu]⟩

/-- C3 witness: the amended statement on the fixture whose only existing
target is a mismatched symbolic link. -/
theorem c3_uninstall_mismatch_witness :
    ∃ rt ∈ exModT12.definition.resources, ∃ a,
      readLinkFs exFsMismatchOnly 4 (["home"] ++ rt.2) = some a ∧
      a ≠ exModT12.path ++ rt.1 ∧
      Module.uninstall exFsMismatchOnly 4 ["home"] exModT12 false none =
        (exFsMismatchOnly, Except.error (ModuleError.uninstall exModT12.name a)) :=
  c3_uninstall_mismatch_amended exFsMismatchOnly 4 ["home"] exModT12 none
    (by
      intro rt hrt hex
      rcases List.mem_cons.mp hrt with rfl | h2
      · exact absurd hex (by decide)
      · rcases List.mem_cons.mp h2 with rfl | h3
        · exact ⟨["elsewhere"], rfl⟩
        · exact absurd h3 (List.not_mem_nil _))
    ⟨(["r2"], ["t2"]), by decide, rfl, ["elsewhere"], rfl, by decide⟩

/-- C10: a dangling symbolic link at a resource target does not exist for
the preflight existence test, so install without force passes preflight
without an InstallConflict for it (here with every other resource clean),
and fails instead in the link phase with an IOError when the symlink call
finds the path occupied. -/
theorem c10_dangling_target (fs : FS) (fuel : Nat) (home : List String) (m : Module)
    (initRes : Option Bool) (r t d : List String)
    (rest : List (List String × List String))
    (hres : m.definition.resources = (r, t) :: rest)
    (hparent : resolveParent fs fuel (home ++ t) = some (home ++ t))
    (hlink : fsGet fs (home ++ t) = some (Node.symlink d))
    (hnoexist : pathExistsB fs fuel (home ++ t) = false)
    (hvmc : verifyModuleCreation fs fuel (home ++ t) = Except.ok ())
    (hrest : preflight fs fuel m.name home false (rest.map (·.2)) = (fs, Except.ok ()))
    (hmk : mkdirAll fs fuel [] (home ++ t).dropLast = (fs, true)) :
    preflight fs fuel m.name home false (m.definition.resources.map (·.2)) =
      (fs, Except.ok ()) ∧
    Module.install fs fuel home m false initRes =
      (fs, Except.error (ModuleError.ioErr m.name)) := by
  have hpre : preflight fs fuel m.name home false (m.definition.resources.map (·.2)) =
      (fs, Except.ok ()) := by
    rw [hres]
    simp [preflight, hnoexist, hvmc, hrest]
  refine ⟨hpre, ?_⟩
  unfold Module.install
  rw [hpre, hres]
  have hsym : symlinkFs fs fuel (m.path ++ r) (home ++ t) = none := by
    simp [symlinkFs, hparent, hlink]
  simp [linkPhase, hmk, hsym]

/-- A path extended by a nonempty taken segment differs from the path. -/
theorem append_take_ne (p l : List String) (n : Nat) (h1 : 1 ≤ n) (h2 : n ≤ l.length) :
    p ++ l.take n ≠ p := by
  intro he
  have hlen := congrArg List.length he
  rw [List.length_append, List.length_take] at hlen
  omega

/-- A path differs from itself extended by one component. -/
theorem ne_append_singleton (cur : List String) (c : String) : cur ≠ cur ++ [c] := by
  intro he
  have hlen := congrArg List.length he
  simp at hlen

/-- Taking one more component after a cons. -/
theorem append_cons_take (cur : List String) (c : String) (rs : List String) (n : Nat) :
    (cur ++ [c]) ++ rs.take n = cur ++ (c :: rs).take (n + 1) := by
  rw [List.take_succ_cons]
  simp [List.append_assoc]

/-- A path with no stored node is not the root. -/
theorem ne_nil_of_fsGet_none (fs : FS) (p : List String) (h : fsGet fs p = none) :
    p ≠ [] := by
  intro he
  rw [he, fsGet_root] at h
  exact Option.noConfusion h

/-- Extension of home-rooted paths cancels the home prefix. -/
theorem under_append_iff (home a b s : List String) :
    (home ++ a) ++ s = home ++ b ↔ a ++ s = b := by
  constructor
  · intro h
    rw [List.append_assoc] at h
    exact List.append_cancel_left h
  · intro h
    rw [List.append_assoc, h]

/-- A finished create_dir_all walk needs no fuel. -/
theorem mkdirLoop_inl (fuel : Nat) (r : FS × Bool) :
    mkdirLoop fuel (Sum.inl r) = r := by
  cases fuel <;> rfl

/-- stat along plain directories ending in a non-link is the stored node. -/
theorem pathExistsB_plain_end (fs : FS) (fuel : Nat) (p : List String)
    (hmid : ∀ n, 1 ≤ n → n < p.length → ∃ mo, fsGet fs (p.take n) = some (Node.dir mo))
    (hend : ∀ t, fsGet fs p ≠ some (Node.symlink t)) :
    pathExistsB fs fuel p = (fsGet fs p).isSome := by
  have hres := resolveSt_dirs fs fuel p []
    (by intro n h1 hn; simpa using hmid n h1 hn)
    (by intro t; simpa using hend t)
  rw [List.nil_append] at hres
  simp [pathExistsB, statNode, hres]

/-- symlink creation at an empty entry under a plain directory chain stores
the link. -/
theorem symlinkFs_clean (fs : FS) (fuel : Nat) (src p : List String)
    (hpre : ∀ n, n < p.length → ∃ mo, fsGet fs (p.take n) = some (Node.dir mo))
    (hnone : fsGet fs p = none) :
    symlinkFs fs fuel src p = some (fsSet fs p (Node.symlink src)) := by
  simp only [symlinkFs,
    resolveParent_plain fs fuel p (ne_nil_of_fsGet_none fs p hnone) hpre, hnone]

/-- A link to a plain file under a plain directory chain exists for stat
and is a file for stat. -/
theorem target_stat (fs : FS) (fuel : Nat) (p src : List String)
    (hl : fsGet fs p = some (Node.symlink src))
    (hch : ∀ n, n < p.length → ∃ mo, fsGet fs (p.take n) = some (Node.dir mo))
    (hsrc : PlainFile fs src) :
    pathExistsB fs (fuel + 1) p = true ∧ isFileB fs (fuel + 1) p = true := by
  have hp : p ≠ [] := by
    intro he
    rw [he, fsGet_root] at hl
    simp at hl
  have hstep := statNode_symlink_step fs fuel p src hp hch hl
  obtain ⟨mo, c, hsn⟩ := statNode_of_plainFile fs fuel src hsrc
  exact ⟨by simp [pathExistsB, hstep, hsn], by simp [isFileB, hstep, hsn]⟩

/-- The create_dir_all walk on an unobstructive remainder below an existing
directory succeeds, adds plain directories exactly at the missing prefixes
of the remainder, and leaves the whole remainder chain as directories. -/
theorem mkdirWalk_clean :
    ∀ (rest : List String) (fs : FS) (cur : List String),
      (∃ mo, fsGet fs cur = some (Node.dir mo)) →
      (∀ n, 1 ≤ n → n ≤ rest.length → OkPre fs (cur ++ rest.take n)) →
      ∃ fs', mkdirWalk fs cur rest = Sum.inl (fs', true) ∧
        (∀ q v, fsGet fs q = some v → fsGet fs' q = some v) ∧
        (∀ q, fsGet fs' q ≠ fsGet fs q →
          fsGet fs q = none ∧ fsGet fs' q = some (Node.dir 493) ∧
          ∃ n, 1 ≤ n ∧ n ≤ rest.length ∧ q = cur ++ rest.take n) ∧
        (∀ n, n ≤ rest.length → ∃ mo, fsGet fs' (cur ++ rest.take n) = some (Node.dir mo)) := by
  intro rest
  induction rest with
  | nil =>
    intro fs cur hcur _
    refine ⟨fs, rfl, fun q v h => h, fun q hne => absurd rfl hne, ?_⟩
    intro n hn
    have hn0 : n = 0 := by simpa using hn
    subst hn0
    simpa using hcur
  | cons c rs ih =>
    intro fs cur hcur hok
    have h1 : OkPre fs (cur ++ [c]) := by
      have := hok 1 (by omega) (by simp)
      simpa [List.take_succ_cons] using this
    rcases h1 with hnone | ⟨mo, hdir⟩
    · -- missing: create the directory and continue
      set fs1 := fsSet fs (cur ++ [c]) (Node.dir 493) with hfs1
      have hstep : mkdirWalk fs cur (c :: rs) = mkdirWalk fs1 (cur ++ [c]) rs := by
        simp only [mkdirWalk, hnone, hfs1]
      have hcur1 : ∃ mo, fsGet fs1 (cur ++ [c]) = some (Node.dir mo) :=
        ⟨493, fsGet_set_eq fs (cur ++ [c]) _ (append_singleton_ne_nil cur c)⟩
      have hok1 : ∀ n, 1 ≤ n → n ≤ rs.length → OkPre fs1 ((cur ++ [c]) ++ rs.take n) := by
        intro n hn1 hn2
        have hne : (cur ++ [c]) ++ rs.take n ≠ cur ++ [c] :=
          append_take_ne (cur ++ [c]) rs n hn1 hn2
        have := hok (n + 1) (by omega) (by simp; omega)
        rw [← append_cons_take] at this
        have hget : fsGet fs1 ((cur ++ [c]) ++ rs.take n) =
            fsGet fs ((cur ++ [c]) ++ rs.take n) :=
          fsGet_set_ne fs (cur ++ [c]) _ _ hne
        unfold OkPre at this ⊢
        rw [hget]
        exact this
      obtain ⟨fs', hw, p1, p2, p3⟩ := ih fs1 (cur ++ [c]) hcur1 hok1
      refine ⟨fs', by rw [hstep, hw], ?_, ?_, ?_⟩
      · intro q v hv
        have hq : q ≠ cur ++ [c] := by
          intro he
          rw [he, hnone] at hv
          exact Option.noConfusion hv
        exact p1 q v (by rw [fsGet_set_ne fs _ _ _ hq]; exact hv)
      · intro q hne
        by_cases hq : q = cur ++ [c]
        · subst hq
          refine ⟨hnone, ?_, 1, by omega, by simp, by simp [List.take_succ_cons]⟩
          exact p1 _ _ (fsGet_set_eq fs _ _ (append_singleton_ne_nil cur c))
        · have hg1 : fsGet fs1 q = fsGet fs q := fsGet_set_ne fs _ _ _ hq
          have hne1 : fsGet fs' q ≠ fsGet fs1 q := by rw [hg1]; exact hne
          obtain ⟨ha, hb, n, hn1, hn2, hq'⟩ := p2 q hne1
          rw [hg1] at ha
          rw [append_cons_take] at hq'
          exact ⟨ha, hb, n + 1, by omega, by simp; omega, hq'⟩
      · intro n hn
        cases n with
        | zero =>
          obtain ⟨mo, hmo⟩ := hcur
          have hq : cur ≠ cur ++ [c] := ne_append_singleton cur c
          refine ⟨mo, ?_⟩
          simp only [List.take_zero, List.append_nil]
          exact p1 cur _ (by rw [fsGet_set_ne fs _ _ _ hq]; exact hmo)
        | succ k =>
          have := p3 k (by simp at hn; omega)
          rw [append_cons_take] at this
          exact this
    · -- already a directory: continue
      have hstep : mkdirWalk fs cur (c :: rs) = mkdirWalk fs (cur ++ [c]) rs := by
        simp only [mkdirWalk, hdir]
      have hok' : ∀ n, 1 ≤ n → n ≤ rs.length → OkPre fs ((cur ++ [c]) ++ rs.take n) := by
        intro n hn1 hn2
        have := hok (n + 1) (by omega) (by simp; omega)
        rw [← append_cons_take] at this
        exact this
      obtain ⟨fs', hw, p1, p2, p3⟩ := ih fs (cur ++ [c]) ⟨mo, hdir⟩ hok'
      refine ⟨fs', by rw [hstep, hw], p1, ?_, ?_⟩
      · intro q hne
        obtain ⟨ha, hb, n, hn1, hn2, hq'⟩ := p2 q hne
        rw [append_cons_take] at hq'
        exact ⟨ha, hb, n + 1, by omega, by simp; omega, hq'⟩
      · intro n hn
        cases n with
        | zero =>
          obtain ⟨mo0, hmo0⟩ := hcur
          refine ⟨mo0, ?_⟩
          simp only [List.take_zero, List.append_nil]
          exact p1 cur _ hmo0
        | succ k =>
          have := p3 k (by simp at hn; omega)
          rw [append_cons_take] at this
          exact this

/-- create_dir_all from the root on an unobstructive path succeeds, adds
plain directories exactly at the missing prefixes, and leaves the whole
chain as directories; fuel is irrelevant on a link-free walk. -/
theorem mkdirAll_clean (fs : FS) (fuel : Nat) (par : List String)
    (hok : ∀ n, n ≤ par.length → OkPre fs (par.take n)) :
    ∃ fs', mkdirAll fs fuel [] par = (fs', true) ∧
      (∀ q v, fsGet fs q = some v → fsGet fs' q = some v) ∧
      (∀ q, fsGet fs' q ≠ fsGet fs q →
        fsGet fs q = none ∧ fsGet fs' q = some (Node.dir 493) ∧
        ∃ n, 1 ≤ n ∧ n ≤ par.length ∧ q = par.take n) ∧
      (∀ n, n ≤ par.length → ∃ mo, fsGet fs' (par.take n) = some (Node.dir mo)) := by
  obtain ⟨fs', hw, p1, p2, p3⟩ := mkdirWalk_clean par fs []
    ⟨493, fsGet_root fs⟩
    (by intro n _ hn; simpa using hok n hn)
  refine ⟨fs', ?_, p1, ?_, ?_⟩
  · unfold mkdirAll
    rw [hw, mkdirLoop_inl]
  · intro q hne
    obtain ⟨ha, hb, n, hn1, hn2, hq'⟩ := p2 q hne
    rw [List.nil_append] at hq'
    exact ⟨ha, hb, n, hn1, hn2, hq'⟩
  · intro n hn
    have := p3 n hn
    rwa [List.nil_append] at this

/-- The link phase on clean, pairwise-free targets succeeds and maintains
the install invariant: starting state extended by created directories and
by the links of the processed resources. -/
theorem linkPhase_clean (fuel : Nat) (name : String) (home mp : List String)
    (fs0 : FS) (all : List (List String × List String))
    (hclean : ∀ rt ∈ all, CleanTgt fs0 (home ++ rt.2))
    (hfree : List.Pairwise (fun a b : List String × List String =>
      (¬ ∃ s, (home ++ a.2) ++ s = home ++ b.2) ∧
      (¬ ∃ s, (home ++ b.2) ++ s = home ++ a.2)) all) :
    ∀ (todo done : List (List String × List String)) (fsC : FS),
      all = done ++ todo → InstallInv fs0 fsC home mp done →
      ∃ fsF, linkPhase fuel name home mp fsC todo = (fsF, Except.ok ()) ∧
        InstallInv fs0 fsF home mp all := by
  intro todo
  induction todo with
  | nil =>
    intro done fsC hsplit hinv
    refine ⟨fsC, rfl, ?_⟩
    rw [List.append_nil] at hsplit
    rw [hsplit]
    exact hinv
  | cons rt rs ih =>
    obtain ⟨r, t⟩ := rt
    intro done fsC hsplit hinv
    obtain ⟨hE, hN, hL⟩ := hinv
    have hmem : (r, t) ∈ all := by rw [hsplit]; simp
    have hcrt : CleanTgt fs0 (home ++ t) := hclean (r, t) hmem
    have hfree' := hfree
    rw [hsplit, List.pairwise_append] at hfree'
    obtain ⟨hpd, hpt, hcross⟩ := hfree'
    have hptc := List.pairwise_cons.mp hpt
    -- Step A: the target is still clean in the current state
    have hA1 : fsGet fsC (home ++ t) = none := by
      by_cases hch : fsGet fsC (home ++ t) = fsGet fs0 (home ++ t)
      · rw [hch]; exact hcrt.1
      · obtain ⟨h0, hcase⟩ := hN (home ++ t) hch
        exfalso
        rcases hcase with ⟨hdir, u, hu, s, hsne, hs⟩ | ⟨u, hu, hqe, hlnk⟩
        · exact (hcross u hu (r, t) (by simp)).2 ⟨s, hs⟩
        · exact (hcross u hu (r, t) (by simp)).2
            ⟨[], by rw [List.append_nil]; exact hqe⟩
    have hA2 : ∀ n, n < (home ++ t).length → OkPre fsC ((home ++ t).take n) := by
      intro n hn
      by_cases hch : fsGet fsC ((home ++ t).take n) = fsGet fs0 ((home ++ t).take n)
      · unfold OkPre
        rw [hch]
        exact hcrt.2 n hn
      · obtain ⟨h0, hcase⟩ := hN _ hch
        rcases hcase with ⟨hdir, _⟩ | ⟨u, hu, hqe, hlnk⟩
        · exact Or.inr ⟨493, hdir⟩
        · exfalso
          have hjoin : (home ++ u.2) ++ (home ++ t).drop n = home ++ t := by
            rw [← hqe, List.take_append_drop]
          exact (hcross u hu (r, t) (by simp)).1 ⟨(home ++ t).drop n, hjoin⟩
    have hp_ne : home ++ t ≠ [] := ne_nil_of_fsGet_none fsC _ hA1
    have hplen : 0 < (home ++ t).length := List.length_pos.mpr hp_ne
    have hparlen : (home ++ t).dropLast.length = (home ++ t).length - 1 := by
      rw [List.dropLast_eq_take, List.length_take]
      omega
    -- Step B: create the parent directories
    have hokpar : ∀ n, n ≤ (home ++ t).dropLast.length →
        OkPre fsC ((home ++ t).dropLast.take n) := by
      intro n hn
      rw [hparlen] at hn
      rw [List.dropLast_eq_take, List.take_take,
        min_eq_left (by omega : n ≤ (home ++ t).length - 1)]
      exact hA2 n (by omega)
    obtain ⟨fs1, hmk, q1, q2, q3⟩ := mkdirAll_clean fsC fuel (home ++ t).dropLast hokpar
    have hch1 : ∀ n, n < (home ++ t).length →
        ∃ mo, fsGet fs1 ((home ++ t).take n) = some (Node.dir mo) := by
      intro n hn
      have := q3 n (by omega)
      rwa [List.dropLast_eq_take, List.take_take,
        min_eq_left (by omega : n ≤ (home ++ t).length - 1)] at this
    have h1none : fsGet fs1 (home ++ t) = none := by
      by_cases hch : fsGet fs1 (home ++ t) = fsGet fsC (home ++ t)
      · rw [hch]; exact hA1
      · obtain ⟨h0, hdir, n, hn1, hn2, hq⟩ := q2 _ hch
        exfalso
        have hlq := congrArg List.length hq
        rw [List.length_take, hparlen] at hlq
        omega
    -- Step C: place the link
    have hsym := symlinkFs_clean fs1 fuel (mp ++ r) (home ++ t) hch1 h1none
    have hstep : linkPhase fuel name home mp fsC ((r, t) :: rs) =
        linkPhase fuel name home mp (fsSet fs1 (home ++ t) (Node.symlink (mp ++ r))) rs := by
      simp only [linkPhase, hmk, hsym]
    -- Step D: re-establish the invariant for done ++ [(r, t)]
    have hE2 : ∀ q v, fsGet fs0 q = some v →
        fsGet (fsSet fs1 (home ++ t) (Node.symlink (mp ++ r))) q = some v := by
      intro q v hv
      have hq : q ≠ home ++ t := by
        intro he
        rw [he, hcrt.1] at hv
        exact Option.noConfusion hv
      rw [fsGet_set_ne fs1 _ _ _ hq]
      exact q1 q v (hE q v hv)
    have hN2 : ∀ q,
        fsGet (fsSet fs1 (home ++ t) (Node.symlink (mp ++ r))) q ≠ fsGet fs0 q →
        fsGet fs0 q = none ∧
        ((fsGet (fsSet fs1 (home ++ t) (Node.symlink (mp ++ r))) q = some (Node.dir 493) ∧
            ∃ u ∈ done ++ [(r, t)], ∃ s, s ≠ [] ∧ q ++ s = home ++ u.2) ∨
          (∃ u ∈ done ++ [(r, t)], q = home ++ u.2 ∧
            fsGet (fsSet fs1 (home ++ t) (Node.symlink (mp ++ r))) q =
              some (Node.symlink (mp ++ u.1)))) := by
      intro q hne
      by_cases hq : q = home ++ t
      · subst hq
        exact ⟨hcrt.1, Or.inr ⟨(r, t), by simp, rfl, fsGet_set_eq fs1 _ _ hp_ne⟩⟩
      · have hg2 : fsGet (fsSet fs1 (home ++ t) (Node.symlink (mp ++ r))) q =
            fsGet fs1 q := fsGet_set_ne fs1 _ _ _ hq
        by_cases hq1 : fsGet fs1 q = fsGet fsC q
        · have hneC : fsGet fsC q ≠ fsGet fs0 q := by
            rw [← hq1, ← hg2]
            exact hne
          obtain ⟨h0, hcase⟩ := hN q hneC
          refine ⟨h0, ?_⟩
          rcases hcase with ⟨hdir, u, hu, s, hsne, hs⟩ | ⟨u, hu, hqe, hlnk⟩
          · exact Or.inl ⟨by rw [hg2, hq1]; exact hdir, u, by simp [hu], s, hsne, hs⟩
          · exact Or.inr ⟨u, by simp [hu], hqe, by rw [hg2, hq1]; exact hlnk⟩
        · obtain ⟨h0C, hdir1, n, hn1, hn2, hq'⟩ := q2 q hq1
          have h00 : fsGet fs0 q = none := by
            by_cases hc0 : fsGet fsC q = fsGet fs0 q
            · rw [← hc0]; exact h0C
            · exact (hN q hc0).1
          have hn2' : n ≤ (home ++ t).length - 1 := by
            rw [hparlen] at hn2
            exact hn2
          have hq'' : q = (home ++ t).take n := by
            rw [hq', List.dropLast_eq_take, List.take_take, min_eq_left hn2']
          refine ⟨h00, Or.inl ⟨by rw [hg2]; exact hdir1, (r, t), by simp,
            (home ++ t).drop n, ?_, ?_⟩⟩
          · intro he
            have := congrArg List.length he
            rw [List.length_drop, List.length_nil] at this
            omega
          · rw [hq'', List.take_append_drop]
    have hL2 : ∀ u ∈ done ++ [(r, t)],
        fsGet (fsSet fs1 (home ++ t) (Node.symlink (mp ++ r))) (home ++ u.2) =
          some (Node.symlink (mp ++ u.1)) ∧
        ∀ n, n < (home ++ u.2).length →
          ∃ mo, fsGet (fsSet fs1 (home ++ t) (Node.symlink (mp ++ r)))
            ((home ++ u.2).take n) = some (Node.dir mo) := by
      intro u hu
      rcases List.mem_append.mp hu with hud | hurt
      · obtain ⟨hlnk, hchn⟩ := hL u hud
        have hne_ut : home ++ u.2 ≠ home ++ t := by
          intro he
          exact (hcross u hud (r, t) (by simp)).1
            ⟨[], by rw [List.append_nil]; exact he⟩
        constructor
        · rw [fsGet_set_ne fs1 _ _ _ hne_ut]
          exact q1 _ _ hlnk
        · intro n hn
          obtain ⟨mo, hmo⟩ := hchn n hn
          have hne2 : (home ++ u.2).take n ≠ home ++ t := by
            intro he
            apply (hcross u hud (r, t) (by simp)).2
            exact ⟨(home ++ u.2).drop n, by rw [← he, List.take_append_drop]⟩
          exact ⟨mo, by rw [fsGet_set_ne fs1 _ _ _ hne2]; exact q1 _ _ hmo⟩
      · have hurt' : u = (r, t) := by simpa using hurt
        subst hurt'
        constructor
        · exact fsGet_set_eq fs1 _ _ hp_ne
        · intro n hn
          have hn' : n < (home ++ t).length := hn
          obtain ⟨mo, hmo⟩ := hch1 n hn'
          have hne3 : (home ++ t).take n ≠ home ++ t := by
            intro he
            have := congrArg List.length he
            rw [List.length_take] at this
            omega
          exact ⟨mo, by rw [fsGet_set_ne fs1 _ _ _ hne3]; exact hmo⟩
    obtain ⟨fsF, hlpF, hinvF⟩ := ih (done ++ [(r, t)])
      (fsSet fs1 (home ++ t) (Node.symlink (mp ++ r)))
      (by rw [hsplit]; simp)
      ⟨hE2, hN2, hL2⟩
    exact ⟨fsF, by rw [hstep]; exact hlpF, hinvF⟩

/-- The uninstall verification pass accepts a state where every target is a
link to its declared source, a plain file behind plain directories. -/
theorem uverify_ok_links (fs : FS) (fuel : Nat) (name : String) (home mp : List String) :
    ∀ rs, (∀ rt ∈ rs,
        fsGet fs (home ++ rt.2) = some (Node.symlink (mp ++ rt.1)) ∧
        (∀ n, n < (home ++ rt.2).length →
          ∃ mo, fsGet fs ((home ++ rt.2).take n) = some (Node.dir mo)) ∧
        PlainFile fs (mp ++ rt.1)) →
      uverify fs (fuel + 1) name home mp rs = Except.ok () := by
  intro rs
  induction rs with
  | nil => intro _; rfl
  | cons rt rest ih =>
    obtain ⟨r, t⟩ := rt
    intro h
    obtain ⟨hl0, hch0, hsrc0⟩ := h (r, t) (by simp)
    have hl : fsGet fs (home ++ t) = some (Node.symlink (mp ++ r)) := hl0
    have hch : ∀ n, n < (home ++ t).length →
        ∃ mo, fsGet fs ((home ++ t).take n) = some (Node.dir mo) := hch0
    have hsrc : PlainFile fs (mp ++ r) := hsrc0
    have hex := (target_stat fs fuel (home ++ t) (mp ++ r) hl hch hsrc).1
    have hp : home ++ t ≠ [] := by
      intro he
      rw [he, fsGet_root] at hl
      simp at hl
    have hrl := readLinkFs_plain fs (fuel + 1) (home ++ t) (mp ++ r) hp hch hl
    have hrec := ih (fun u hu => h u (by simp [hu]))
    simp [uverify, hex, hrl, hrec]

/-- The removal pass on a state where every target is a link to its plain
file source removes exactly the links: afterwards every target is empty and
every other path is untouched. -/
theorem removal_clean (fuel : Nat) (name : String) (home mp : List String) :
    ∀ (todo : List (List String × List String)) (fs : FS),
      (∀ rt ∈ todo,
        fsGet fs (home ++ rt.2) = some (Node.symlink (mp ++ rt.1)) ∧
        (∀ n, n < (home ++ rt.2).length →
          ∃ mo, fsGet fs ((home ++ rt.2).take n) = some (Node.dir mo)) ∧
        PlainFile fs (mp ++ rt.1)) →
      List.Pairwise (fun a b : List String × List String =>
        (¬ ∃ s, (home ++ a.2) ++ s = home ++ b.2) ∧
        (¬ ∃ s, (home ++ b.2) ++ s = home ++ a.2)) todo →
      ∃ fsF, removalPhase (fuel + 1) name home fs (todo.map (·.2)) =
          (fsF, Except.ok ()) ∧
        (∀ rt ∈ todo, fsGet fsF (home ++ rt.2) = none) ∧
        (∀ q, (∀ rt ∈ todo, q ≠ home ++ rt.2) → fsGet fsF q = fsGet fs q) := by
  intro todo
  induction todo with
  | nil =>
    intro fs _ _
    exact ⟨fs, rfl, by simp, fun q _ => rfl⟩
  | cons rt rest ih =>
    obtain ⟨r, t⟩ := rt
    intro fs h hpair
    obtain ⟨hl0, hch0, hsrc0⟩ := h (r, t) (by simp)
    have hl : fsGet fs (home ++ t) = some (Node.symlink (mp ++ r)) := hl0
    have hch : ∀ n, n < (home ++ t).length →
        ∃ mo, fsGet fs ((home ++ t).take n) = some (Node.dir mo) := hch0
    have hsrc : PlainFile fs (mp ++ r) := hsrc0
    obtain ⟨hex, hisf⟩ := target_stat fs fuel (home ++ t) (mp ++ r) hl hch hsrc
    have hp : home ++ t ≠ [] := by
      intro he
      rw [he, fsGet_root] at hl
      simp at hl
    have hrm : removeFileFs fs (fuel + 1) (home ++ t) =
        some (fsErase fs (home ++ t)) :=
      removeFileFs_plain fs (fuel + 1) (home ++ t) (Node.symlink (mp ++ r)) hp hch hl
        (fun mo hmo => Node.noConfusion hmo)
    have hpc := List.pairwise_cons.mp hpair
    have hrest : ∀ u ∈ rest,
        fsGet (fsErase fs (home ++ t)) (home ++ u.2) =
          some (Node.symlink (mp ++ u.1)) ∧
        (∀ n, n < (home ++ u.2).length →
          ∃ mo, fsGet (fsErase fs (home ++ t)) ((home ++ u.2).take n) =
            some (Node.dir mo)) ∧
        PlainFile (fsErase fs (home ++ t)) (mp ++ u.1) := by
      intro u hu
      obtain ⟨hul, huch, husrc⟩ := h u (by simp [hu])
      have hR := hpc.1 u hu
      have hne1 : home ++ u.2 ≠ home ++ t := by
        intro he
        exact hR.2 ⟨[], by rw [List.append_nil]; exact he⟩
      refine ⟨?_, ?_, ?_⟩
      · rw [fsGet_erase_ne fs _ _ hne1]
        exact hul
      · intro n hn
        obtain ⟨mo, hmo⟩ := huch n hn
        have hne2 : (home ++ u.2).take n ≠ home ++ t := by
          intro he
          exact hR.1 ⟨(home ++ u.2).drop n, by rw [← he, List.take_append_drop]⟩
        exact ⟨mo, by rw [fsGet_erase_ne fs _ _ hne2]; exact hmo⟩
      · obtain ⟨⟨mo, c, hf⟩, hpre2⟩ := husrc
        have hne3 : mp ++ u.1 ≠ home ++ t := by
          intro he
          rw [he, hl] at hf
          simp at hf
        refine ⟨⟨mo, c, by rw [fsGet_erase_ne fs _ _ hne3]; exact hf⟩, ?_⟩
        intro n hn
        obtain ⟨mo2, hmo2⟩ := hpre2 n hn
        have hne4 : (mp ++ u.1).take n ≠ home ++ t := by
          intro he
          rw [he, hl] at hmo2
          simp at hmo2
        exact ⟨mo2, by rw [fsGet_erase_ne fs _ _ hne4]; exact hmo2⟩
    obtain ⟨fsF, hrp, htg, hfr⟩ := ih (fsErase fs (home ++ t)) hrest hpc.2
    have hstep : removalPhase (fuel + 1) name home fs (((r, t) :: rest).map (·.2)) =
        removalPhase (fuel + 1) name home (fsErase fs (home ++ t)) (rest.map (·.2)) := by
      simp [removalPhase, hex, hisf, hrm]
    refine ⟨fsF, by rw [hstep]; exact hrp, ?_, ?_⟩
    · intro u hu
      rcases List.mem_cons.mp hu with rfl | hu2
      · show fsGet fsF (home ++ t) = none
        have hq : ∀ v ∈ rest, (home ++ t) ≠ home ++ v.2 := by
          intro v hv he
          exact (hpc.1 v hv).1 ⟨[], by rw [List.append_nil]; exact he⟩
        rw [hfr (home ++ t) hq]
        exact fsGet_erase_self fs (home ++ t) hp
      · exact htg u hu2
    · intro q hq
      have hq1 : ∀ v ∈ rest, q ≠ home ++ v.2 := fun v hv => hq v (by simp [hv])
      rw [hfr q hq1]
      exact fsGet_erase_ne fs _ _ (hq (r, t) (by simp))

/-- C1 counterexample: a module whose single resource target a/b does not
pre-exist on disk (home/a is a file, so the target path cannot exist), yet
install(forceOverwrite=false) fails with InstallPath on the blocked
ancestor, so the install and uninstall pair does not succeed as the claim
states. -/
theorem c1_roundtrip_counterexample :
    pathExistsB exFsBlocked 4 (["home"] ++ ["a", "b"]) = false ∧
    (Module.install exFsBlocked 4 ["home"] exMod false none).2 =
      Except.error (ModuleError.installPath "m" ["home", "a"]) :=
  ⟨rfl, rfl⟩

/-- C1 amended: for a module whose resources are plain files, whose targets
are absent with every ancestor either absent or a plain directory, whose
targets are pairwise non-nested, and whose declared scripts exit
successfully, install(false) followed by uninstall(false) both succeed;
afterwards no resource target exists on disk, everything that existed
before is untouched, and the only paths added by the pair are directories
created for target parents. -/
theorem c1_roundtrip_amended (fs : FS) (fuel : Nat) (home : List String) (m : Module)
    (initRes cleanupRes : Option Bool)
    (hclean : ∀ rt ∈ m.definition.resources, cleanTgtB fs (home ++ rt.2) = true)
    (hsrc : ∀ rt ∈ m.definition.resources, plainFileB fs (m.path ++ rt.1) = true)
    (hfree : targetsFreeB (m.definition.resources.map (·.2)) = true)
    (hinit : m.definition.init = true → initRes = some true)
    (hcleanup : m.definition.cleanup = true → cleanupRes = some true) :
    ∃ fsI fsF,
      Module.install fs (fuel + 1) home m false initRes = (fsI, Except.ok ()) ∧
      Module.uninstall fsI (fuel + 1) home m false cleanupRes = (fsF, Except.ok ()) ∧
      (∀ rt ∈ m.definition.resources,
        fsGet fsF (home ++ rt.2) = none ∧
        pathExistsB fsF (fuel + 1) (home ++ rt.2) = false) ∧
      (∀ q v, fsGet fs q = some v → fsGet fsF q = some v) ∧
      (∀ q, fsGet fsF q ≠ fsGet fs q →
        fsGet fs q = none ∧ fsGet fsF q = some (Node.dir 493)) := by
  have hcleanP : ∀ rt ∈ m.definition.resources, CleanTgt fs (home ++ rt.2) :=
    fun rt h => cleanTgtB_clean fs _ (hclean rt h)
  have hsrcP : ∀ rt ∈ m.definition.resources, PlainFile fs (m.path ++ rt.1) :=
    fun rt h => plainFileB_plain fs _ (hsrc rt h)
  have hfreeRaw := targetsFreeB_pairwise _ hfree
  have hfreeRes : List.Pairwise (fun a b : List String × List String =>
      (¬ ∃ s, a.2 ++ s = b.2) ∧ (¬ ∃ s, b.2 ++ s = a.2)) m.definition.resources :=
    List.pairwise_map.mp hfreeRaw
  have hfreeHome : List.Pairwise (fun a b : List String × List String =>
      (¬ ∃ s, (home ++ a.2) ++ s = home ++ b.2) ∧
      (¬ ∃ s, (home ++ b.2) ++ s = home ++ a.2)) m.definition.resources := by
    refine List.Pairwise.imp ?_ hfreeRes
    intro a b hab
    constructor
    · rintro ⟨s, hs⟩
      exact hab.1 ⟨s, (under_append_iff home a.2 b.2 s).mp hs⟩
    · rintro ⟨s, hs⟩
      exact hab.2 ⟨s, (under_append_iff home b.2 a.2 s).mp hs⟩
  have hpre : preflight fs (fuel + 1) m.name home false
      (m.definition.resources.map (·.2)) = (fs, Except.ok ()) := by
    apply preflight_clean
    intro u hu
    obtain ⟨rt, hrt, rfl⟩ := List.mem_map.mp hu
    exact hcleanP rt hrt
  obtain ⟨fsI, hlp, hinvF⟩ := linkPhase_clean (fuel + 1) m.name home m.path fs
    m.definition.resources hcleanP hfreeHome m.definition.resources [] fs (by simp)
    ⟨fun q v h => h, fun q hne => absurd rfl hne, fun rt h => absurd h (List.not_mem_nil rt)⟩
  obtain ⟨hIE, hIN, hIL⟩ := hinvF
  have hinstall : Module.install fs (fuel + 1) home m false initRes =
      (fsI, Except.ok ()) := by
    cases hi : m.definition.init
    · simp [Module.install, hpre, hlp, hi]
    · simp [Module.install, hpre, hlp, hi, hinit hi, runScript]
  have hfacts : ∀ rt ∈ m.definition.resources,
      fsGet fsI (home ++ rt.2) = some (Node.symlink (m.path ++ rt.1)) ∧
      (∀ n, n < (home ++ rt.2).length →
        ∃ mo, fsGet fsI ((home ++ rt.2).take n) = some (Node.dir mo)) ∧
      PlainFile fsI (m.path ++ rt.1) := by
    intro rt hrt
    obtain ⟨hlnk, hchn⟩ := hIL rt hrt
    refine ⟨hlnk, hchn, ?_⟩
    obtain ⟨⟨mo, c, hf⟩, hpre2⟩ := hsrcP rt hrt
    refine ⟨⟨mo, c, hIE _ _ hf⟩, ?_⟩
    intro n hn
    obtain ⟨mo2, h2⟩ := hpre2 n hn
    exact ⟨mo2, hIE _ _ h2⟩
  have huv := uverify_ok_links fsI fuel m.name home m.path m.definition.resources hfacts
  obtain ⟨fsF, hrp, htg, hfr⟩ := removal_clean fuel m.name home m.path
    m.definition.resources fsI hfacts hfreeHome
  have huninstall : Module.uninstall fsI (fuel + 1) home m false cleanupRes =
      (fsF, Except.ok ()) := by
    cases hc : m.definition.cleanup
    · simp [Module.uninstall, huv, hrp, hc]
    · simp [Module.uninstall, huv, hrp, hc, hcleanup hc, runScript]
  have hsymmR : Symmetric (fun a b : List String × List String =>
      (¬ ∃ s, (home ++ a.2) ++ s = home ++ b.2) ∧
      (¬ ∃ s, (home ++ b.2) ++ s = home ++ a.2)) := by
    intro x y hxy
    exact ⟨hxy.2, hxy.1⟩
  have hsymm : ∀ a ∈ m.definition.resources, ∀ b ∈ m.definition.resources, a ≠ b →
      (¬ ∃ s, (home ++ a.2) ++ s = home ++ b.2) ∧
      (¬ ∃ s, (home ++ b.2) ++ s = home ++ a.2) :=
    fun a ha b hb hab => List.Pairwise.forall hsymmR hfreeHome ha hb hab
  refine ⟨fsI, fsF, hinstall, huninstall, ?_, ?_, ?_⟩
  · intro rt hrt
    refine ⟨htg rt hrt, ?_⟩
    have hmid : ∀ n, 1 ≤ n → n < (home ++ rt.2).length →
        ∃ mo, fsGet fsF ((home ++ rt.2).take n) = some (Node.dir mo) := by
      intro n _ hn
      obtain ⟨hlnk, hchn⟩ := hIL rt hrt
      obtain ⟨mo, hmo⟩ := hchn n hn
      have hneq : ∀ v ∈ m.definition.resources,
          (home ++ rt.2).take n ≠ home ++ v.2 := by
        intro v hv he
        by_cases hvr : v = rt
        · subst hvr
          have := congrArg List.length he
          rw [List.length_take] at this
          omega
        · exact (hsymm v hv rt hrt hvr).1
            ⟨(home ++ rt.2).drop n, by rw [← he, List.take_append_drop]⟩
      rw [hfr _ hneq]
      exact ⟨mo, hmo⟩
    have hend : ∀ d, fsGet fsF (home ++ rt.2) ≠ some (Node.symlink d) := by
      intro d
      rw [htg rt hrt]
      simp
    rw [pathExistsB_plain_end fsF (fuel + 1) _ hmid hend, htg rt hrt]
    rfl
  · intro q v hv
    have hq : ∀ rt ∈ m.definition.resources, q ≠ home ++ rt.2 := by
      intro rt hrt he
      rw [he, (hcleanP rt hrt).1] at hv
      exact Option.noConfusion hv
    rw [hfr q hq]
    exact hIE q v hv
  · intro q hne
    by_cases htarget : ∃ rt ∈ m.definition.resources, q = home ++ rt.2
    · obtain ⟨rt, hrt, rfl⟩ := htarget
      exact absurd (by rw [htg rt hrt, (hcleanP rt hrt).1]) hne
    · push_neg at htarget
      have hfq : fsGet fsF q = fsGet fsI q := hfr q htarget
      rw [hfq] at hne ⊢
      obtain ⟨h0, hcase⟩ := hIN q hne
      refine ⟨h0, ?_⟩
      rcases hcase with ⟨hdir, _⟩ | ⟨u, hu, hqe, _⟩
      · exact hdir
      · exact absurd hqe (htarget u hu)

/-- C1 witness: the amended round trip on the clean fixture. -/
theorem c1_roundtrip_witness :
    ∃ fsI fsF,
      Module.install exFs (3 + 1) ["home"] exMod false none = (fsI, Except.ok ()) ∧
      Module.uninstall fsI (3 + 1) ["home"] exMod false none = (fsF, Except.ok ()) ∧
      (∀ rt ∈ exMod.definition.resources,
        fsGet fsF (["home"] ++ rt.2) = none ∧
        pathExistsB fsF (3 + 1) (["home"] ++ rt.2) = false) ∧
      (∀ q v, fsGet exFs q = some v → fsGet fsF q = some v) ∧
      (∀ q, fsGet fsF q ≠ fsGet exFs q →
        fsGet exFs q = none ∧ fsGet fsF q = some (Node.dir 493)) :=
  c1_roundtrip_amended exFs 3 ["home"] exMod none none
    (by decide) (by decide) (by decide)
    (fun h => Bool.noConfusion h) (fun h => Bool.noConfusion h)

/-- C10 witness: the fixture with a dangling link at the single target. -/
theorem c10_dangling_target_witness :
    preflight exFsDangling 4 "m" ["home"] false
        (exModT.definition.resources.map (·.2)) = (exFsDangling, Except.ok ()) ∧
    Module.install exFsDangling 4 ["home"] exModT false none =
      (exFsDangling, Except.error (ModuleError.ioErr "m")) :=
  c10_dangling_target exFsDangling 4 ["home"] exModT none ["r"] ["t"] ["gone"] []
    rfl rfl rfl rfl rfl rfl rfl

end Modman
